import Mathlib

/-!
# Verification of the m3u8-downloader core pipeline

A shallow embedding of `src/rust/src/api/downloader.rs`: the playlist
resolution, key resolution, bounded-retry segment download, and ordered
merge of the HLS downloader, together with proofs of the specified
properties.  Rust `Vec<u8>` bodies are `List Nat` (one entry per byte),
Rust `String` values are `List Char`, machine-integer wrap-around is made
explicit with `% 2 ^ w` where the source can overflow.
-/

deriving instance DecidableEq for Except

namespace Hls

/-- Byte sequences: an HTTP body or a file payload (`Vec<u8>` in the source). -/
abbrev Bytes := List Nat

/-- The error outcomes of a run, abstracting the `anyhow` error values
produced by `bail!` / `?` in `downloader.rs`. -/
inductive DlErr where
  /-- `bail!("MediaPlaylist contains no segments")`, line 661. -/
  | noSegments
  /-- `anyhow!("Found encrypted stream but key.uri is empty")`, line 680. -/
  | missingKeyUri
  /-- `bail!("AES-128 encrypted stream but IV not provided")`, line 693. -/
  | missingIv
  /-- `.context("IV hex decode failed")`, line 691. -/
  | ivHexInvalid
  /-- `bail!("IV length is not 16 bytes")`, line 739. -/
  | ivLength
  /-- `Aes128Cbc::new_from_slices` failure (bad key length), line 741. -/
  | cipherInit
  /-- `cipher.decrypt_vec(&data)?` failure, line 742. -/
  | decryption
  /-- `bail!("Failed after {} attempts: ...")`, line 787. -/
  | exhausted (attempts : Nat)
  /-- network / non-2xx transport failure surfaced by `?`. -/
  | transport
  /-- `Url::parse` failure surfaced by `?`. -/
  | parseErr
  /-- `anyhow!("No usable variant found")`, line 513. -/
  | noVariant
  /-- `fs::read` failure during merge for one index, line 816. -/
  | missingSegment (idx : Nat)
deriving DecidableEq

/-- Outcome of one `client.get(&seg_url).send().await` attempt. -/
inductive FetchOutcome where
  | ok (body : Bytes)
  | httpErr (status : Nat)
  | connErr
deriving DecidableEq

/-- `resp.status().is_success()` for the modelled attempt outcome. -/
def FetchOutcome.isSuccess : FetchOutcome → Bool
  | .ok _ => true
  | _ => false

/-- Observable actions of one run, used to state *when* network and file
effects happen (and that none happen on early-abort paths). -/
inductive Act where
  | get (idx attempt : Nat)
  | sleepMs (ms : Nat)
  | write (name : List Char) (data : Bytes)
deriving DecidableEq

/-- Recognizer for GET attempts in a trace. -/
def Act.isGet : Act → Bool
  | .get _ _ => true
  | _ => false

/-! ## Deterministic segment temp-file names

`format!("seg_{:05}.ts", idx)` from line 748 / 813: the decimal digits of
`idx`, zero-padded on the left to width 5. -/

/-- Little-endian decimal digits of `n`, fuelled structural recursion so the
definition reduces inside the kernel.  Agrees with `Nat.digits 10`. -/
def natDigitsAux : Nat → Nat → List Nat
  | 0, _ => []
  | _ + 1, 0 => []
  | fuel + 1, n + 1 => ((n + 1) % 10) :: natDigitsAux fuel ((n + 1) / 10)

/-- Little-endian decimal digits of `n`. -/
def natDigits (n : Nat) : List Nat := natDigitsAux n n

theorem natDigitsAux_eq_digits : ∀ fuel n, n ≤ fuel → natDigitsAux fuel n = Nat.digits 10 n := by
  intro fuel
  induction fuel with
  | zero =>
      intro n hn
      interval_cases n
      simp [natDigitsAux]
  | succ fuel ih =>
      intro n hn
      match n with
      | 0 => simp [natDigitsAux]
      | m + 1 =>
          rw [natDigitsAux, Nat.digits_def' (by norm_num : (1:ℕ) < 10) (Nat.succ_pos m)]
          congr 1
          exact ih _ (by
            have := Nat.div_lt_self (Nat.succ_pos m) (by norm_num : (1:ℕ) < 10)
            omega)

theorem natDigits_eq (n : Nat) : natDigits n = Nat.digits 10 n :=
  natDigitsAux_eq_digits n n le_rfl

/-- The digits of `idx` padded at the most-significant end to width ≥ 5
(`{:05}`, still little-endian here). -/
def padDigits (n : Nat) : List Nat :=
  natDigits n ++ List.replicate (5 - (natDigits n).length) 0

theorem ofDigits_replicate_zero (b : Nat) : ∀ k, Nat.ofDigits b (List.replicate k 0) = 0 := by
  intro k
  induction k with
  | zero => simp [Nat.ofDigits]
  | succ k ih => simp [List.replicate_succ, Nat.ofDigits_cons, ih]

theorem ofDigits_padDigits (n : Nat) : Nat.ofDigits 10 (padDigits n) = n := by
  rw [padDigits, Nat.ofDigits_append, ofDigits_replicate_zero, natDigits_eq,
    Nat.ofDigits_digits]
  ring

theorem padDigits_injective : Function.Injective padDigits := by
  intro i j h
  have := congrArg (Nat.ofDigits 10) h
  rwa [ofDigits_padDigits, ofDigits_padDigits] at this

theorem padDigits_lt_ten (n : Nat) : ∀ d ∈ padDigits n, d < 10 := by
  intro d hd
  rcases List.mem_append.mp hd with hd | hd
  · rw [natDigits_eq] at hd
    exact Nat.digits_lt_base (by norm_num) hd
  · have := List.eq_of_mem_replicate hd
    omega

/-- One decimal digit rendered as a character (`'0'` is code 48). -/
def digitToChar (d : Nat) : Char := Char.ofNat (48 + d)

theorem digitToChar_inj_lt : ∀ a b : Nat, a < 10 → b < 10 →
    digitToChar a = digitToChar b → a = b := by
  have key : ∀ a b : Fin 10, digitToChar a.val = digitToChar b.val → a = b := by decide
  intro a b ha hb h
  have := key ⟨a, ha⟩ ⟨b, hb⟩ h
  exact congrArg Fin.val this

theorem map_digitToChar_inj : ∀ (xs ys : List Nat), (∀ x ∈ xs, x < 10) →
    (∀ y ∈ ys, y < 10) → xs.map digitToChar = ys.map digitToChar → xs = ys := by
  intro xs
  induction xs with
  | nil =>
      intro ys _ _ h
      cases ys with
      | nil => rfl
      | cons y ys => simp at h
  | cons x xs ih =>
      intro ys hx hy h
      cases ys with
      | nil => simp at h
      | cons y ys =>
          simp only [List.map_cons, List.cons.injEq] at h
          have hxy : x = y :=
            digitToChar_inj_lt x y (hx x (by simp)) (hy y (by simp)) h.1
          have := ih ys (fun z hz => hx z (by simp [hz])) (fun z hz => hy z (by simp [hz])) h.2
          rw [hxy, this]

/-- `format!("seg_{:05}.ts", idx)` as a character list. -/
def segName (idx : Nat) : List Char :=
  "seg_".data ++ (padDigits idx).reverse.map digitToChar ++ ".ts".data

theorem segName_injective : Function.Injective segName := by
  intro i j h
  unfold segName at h
  rw [List.append_assoc, List.append_assoc] at h
  have h1 := List.append_cancel_left h
  have h2 := List.append_cancel_right h1
  have h3 := map_digitToChar_inj _ _
    (fun x hx => padDigits_lt_ten i x (List.mem_reverse.mp hx))
    (fun y hy => padDigits_lt_ten j y (List.mem_reverse.mp hy)) h2
  exact padDigits_injective (List.reverse_injective h3)

/-! ## The temp directory as a name-indexed store

Segment files written by the download tasks and consumed by the merge loop,
lines 748-756 and 812-823. -/

/-- The temp directory: a map from file names to contents. -/
def Fs := List Char → Option Bytes

/-- The empty temp directory. -/
def fsEmpty : Fs := fun _ => none

/-- `fs::write(&tmp_path, &buf)`: (over)write one file. -/
def fsInsert (name : List Char) (v : Bytes) (fs : Fs) : Fs :=
  fun m => if m = name then some v else fs m

/-- `fs::remove_file(&tmp_path)`: delete one file. -/
def fsErase (name : List Char) (fs : Fs) : Fs :=
  fun m => if m = name then none else fs m

/-- Apply the segment writes in completion order `order` (each index `i`
writes payload `payload i` under `segName i`). -/
def applyWrites (order : List Nat) (payload : Nat → Bytes) (fs : Fs) : Fs :=
  order.foldl (fun acc i => fsInsert (segName i) (payload i) acc) fs

theorem applyWrites_cons (j : Nat) (t : List Nat) (payload : Nat → Bytes) (fs : Fs) :
    applyWrites (j :: t) payload fs =
      applyWrites t payload (fsInsert (segName j) (payload j) fs) := rfl

theorem applyWrites_not_mem (order : List Nat) (payload : Nat → Bytes) (i : Nat)
    (h : i ∉ order) : ∀ fs : Fs, applyWrites order payload fs (segName i) = fs (segName i) := by
  induction order with
  | nil => intro fs; rfl
  | cons j t ih =>
      intro fs
      have hij : i ≠ j := fun e => h (by simp [e])
      have hit : i ∉ t := fun e => h (by simp [e])
      rw [applyWrites_cons, ih hit]
      have hne : segName i ≠ segName j := fun e => hij (segName_injective e)
      simp [fsInsert, hne]

theorem applyWrites_mem (order : List Nat) (payload : Nat → Bytes) (i : Nat)
    (h : i ∈ order) (hnd : order.Nodup) :
    ∀ fs : Fs, applyWrites order payload fs (segName i) = some (payload i) := by
  induction order with
  | nil => cases h
  | cons j t ih =>
      intro fs
      rw [applyWrites_cons]
      rcases List.mem_cons.mp h with hij | hit
      · subst hij
        have hnot : i ∉ t := (List.nodup_cons.mp hnd).1
        rw [applyWrites_not_mem t payload i hnot]
        simp [fsInsert]
      · exact ih hit (List.nodup_cons.mp hnd).2 _

/-! ## AES-128-CBC with PKCS#7 padding

The source decrypts with `Aes128Cbc::new_from_slices(k, iv)?` followed by
`cipher.decrypt_vec(&data)?` (line 741-742), where
`type Aes128Cbc = Cbc<Aes128, Pkcs7>`.  The AES block permutation and the
CBC/PKCS#7 mode live in the external `aes` / `block_modes` crates, so they
are modelled here; the AES-128 block maps are abstract parameters
`encBlock` / `decBlock` on 16-byte blocks. -/

/-- Byte-wise XOR of two equal-length byte blocks. -/
def zipXor (a b : Bytes) : Bytes := List.zipWith Nat.xor a b

theorem zipXor_length (a b : Bytes) : (zipXor a b).length = min a.length b.length :=
  List.length_zipWith _ a b

theorem zipXor_zipXor_left (a b : Bytes) (h : a.length = b.length) :
    zipXor (zipXor a b) a = b := by
  induction a generalizing b with
  | nil =>
      cases b with
      | nil => rfl
      | cons y ys => simp at h
  | cons x xs ih =>
      cases b with
      | nil => simp at h
      | cons y ys =>
          have hstep : zipXor (zipXor (x :: xs) (y :: ys)) (x :: xs) =
              Nat.xor (Nat.xor x y) x :: zipXor (zipXor xs ys) xs := rfl
          rw [hstep, ih ys (by simpa using h)]
          congr 1
          show (x ^^^ y) ^^^ x = y
          rw [Nat.xor_comm x y, Nat.xor_assoc, Nat.xor_self, Nat.xor_zero]

/-- Fuelled splitter into consecutive 16-byte blocks; structural recursion on
the fuel so the definition reduces inside the kernel. -/
def toBlocksAux : Nat → Bytes → List Bytes
  | 0, _ => []
  | _ + 1, [] => []
  | fuel + 1, x :: xs => ((x :: xs).take 16) :: toBlocksAux fuel ((x :: xs).drop 16)

/-- Split a byte string into consecutive 16-byte blocks. -/
def toBlocks (l : Bytes) : List Bytes := toBlocksAux l.length l

theorem toBlocksAux_fuel : ∀ (fuel : Nat) (l : Bytes), l.length ≤ fuel →
    toBlocksAux fuel l = toBlocksAux l.length l := by
  intro fuel
  induction fuel using Nat.strong_induction_on with
  | _ fuel ih =>
      intro l h
      match fuel, l with
      | 0, l =>
          have : l = [] := List.eq_nil_of_length_eq_zero (by omega)
          subst this
          rfl
      | fuel + 1, [] => rfl
      | fuel + 1, x :: xs =>
          rw [toBlocksAux]
          have hxs : xs.length + 1 ≤ fuel + 1 := by
            simpa using h
          have hlen : ((x :: xs).drop 16).length ≤ fuel := by
            simp only [List.length_drop, List.length_cons]
            omega
          have hlen2 : ((x :: xs).drop 16).length ≤ xs.length := by
            simp only [List.length_drop, List.length_cons]
            omega
          rw [ih fuel (by omega) _ hlen]
          rw [show (x :: xs).length = xs.length + 1 from rfl, toBlocksAux]
          rw [ih xs.length (by omega) _ hlen2]

theorem toBlocks_nil : toBlocks [] = [] := rfl

theorem toBlocks_of_ne_nil (l : Bytes) (h : l ≠ []) :
    toBlocks l = l.take 16 :: toBlocks (l.drop 16) := by
  cases l with
  | nil => exact absurd rfl h
  | cons x xs =>
      rw [toBlocks, show (x :: xs).length = xs.length + 1 from rfl, toBlocksAux]
      rw [toBlocks, toBlocksAux_fuel xs.length ((x :: xs).drop 16)
        (by simp only [List.length_drop, List.length_cons]; omega)]

theorem join_toBlocks_aux : ∀ (n : Nat) (l : Bytes), l.length ≤ n →
    (toBlocks l).flatten = l := by
  intro n
  induction n with
  | zero =>
      intro l h
      have : l = [] := List.eq_nil_of_length_eq_zero (by omega)
      subst this
      simp [toBlocks_nil]
  | succ n ih =>
      intro l h
      by_cases hl : l = []
      · subst hl; simp [toBlocks_nil]
      · rw [toBlocks_of_ne_nil l hl, List.flatten_cons]
        have hpos : 0 < l.length := List.length_pos.mpr hl
        rw [ih (l.drop 16) (by simp only [List.length_drop]; omega)]
        exact List.take_append_drop 16 l

theorem join_toBlocks (l : Bytes) : (toBlocks l).flatten = l :=
  join_toBlocks_aux l.length l le_rfl

theorem toBlocks_join (bs : List Bytes) (h : ∀ b ∈ bs, b.length = 16) :
    toBlocks bs.flatten = bs := by
  induction bs with
  | nil => simp [toBlocks_nil]
  | cons b t ih =>
      have hb : b.length = 16 := h b (by simp)
      have hbne : b ++ t.flatten ≠ [] := by
        intro e
        have := congrArg List.length e
        simp [hb] at this
      rw [List.flatten_cons, toBlocks_of_ne_nil _ hbne]
      rw [show (16 : Nat) = b.length from hb.symm, List.take_left, List.drop_left]
      rw [ih (fun x hx => h x (by simp [hx]))]

theorem toBlocks_all_sixteen_aux : ∀ (n : Nat) (l : Bytes), l.length ≤ n →
    l.length % 16 = 0 → ∀ b ∈ toBlocks l, b.length = 16 := by
  intro n
  induction n with
  | zero =>
      intro l hn _ b hb
      have : l = [] := List.eq_nil_of_length_eq_zero (by omega)
      subst this
      simp [toBlocks_nil] at hb
  | succ n ih =>
      intro l hn h b hb
      by_cases hl : l = []
      · subst hl; simp [toBlocks_nil] at hb
      · have hpos : 0 < l.length := List.length_pos.mpr hl
        have h16 : 16 ≤ l.length := by omega
        rw [toBlocks_of_ne_nil l hl] at hb
        rcases List.mem_cons.mp hb with hb | hb
        · subst hb; simp only [List.length_take]; omega
        · exact ih (l.drop 16) (by simp only [List.length_drop]; omega)
            (by simp only [List.length_drop]; omega) b hb

theorem toBlocks_all_sixteen (l : Bytes) (h : l.length % 16 = 0) :
    ∀ b ∈ toBlocks l, b.length = 16 :=
  toBlocks_all_sixteen_aux l.length l le_rfl h

/-- CBC encryption of a block list: `C_i = E(C_(i-1) XOR P_i)` with `C_0 = IV`.
Modelled from the spec: the encryption direction of AES-128-CBC (the test
harness of §8; the `block_modes` crate is external to src/). -/
def cbcEncryptBlocks (encBlock : Bytes → Bytes) (iv : Bytes) : List Bytes → List Bytes
  | [] => []
  | p :: ps =>
      let c := encBlock (zipXor iv p)
      c :: cbcEncryptBlocks encBlock c ps

/-- CBC decryption of a block list: `P_i = D(C_i) XOR C_(i-1)` with `C_0 = IV`.
Modelled from the spec: `block_modes`' CBC decryption (external to src/). -/
def cbcDecryptBlocks (decBlock : Bytes → Bytes) (iv : Bytes) : List Bytes → List Bytes
  | [] => []
  | c :: cs => zipXor (decBlock c) iv :: cbcDecryptBlocks decBlock c cs

/-- PKCS#7 padding: append `n` copies of `n` where `n = 16 - len % 16 ∈ [1,16]`.
Modelled from the spec: the padding side of PKCS#7 (§8 round-trip). -/
def pkcs7Pad (pt : Bytes) : Bytes :=
  pt ++ List.replicate (16 - pt.length % 16) (16 - pt.length % 16)

/-- PKCS#7 unpadding: the last byte `n` must satisfy `1 ≤ n ≤ 16`, there must
be at least `n` bytes, and the last `n` bytes must all equal `n`; the result
drops them.  Modelled from the spec: `Pkcs7` unpadding of the external
`block_modes` crate ("fails ... if padding is invalid").  An empty input
yields `n = 0`, which fails `1 ≤ n`. -/
def pkcs7Unpad (bs : Bytes) : Option Bytes :=
  let n := bs.getLastD 0
  if 1 ≤ n ∧ n ≤ 16 ∧ n ≤ bs.length ∧ (bs.drop (bs.length - n)).all (fun x => x == n)
  then some (bs.take (bs.length - n))
  else none

/-- Full CBC encryption of a plaintext: pad, split into blocks, chain, flatten.
Modelled from the spec: the §8 round-trip test's encryption direction. -/
def cbcEncrypt (encBlock : Bytes → Bytes) (iv pt : Bytes) : Bytes :=
  (cbcEncryptBlocks encBlock iv (toBlocks (pkcs7Pad pt))).flatten

/-- `cipher.decrypt_vec(&data)`: reject a ciphertext whose length is not a
multiple of the block size, CBC-decrypt, then strip PKCS#7 padding (`none`
is the `DecryptionError` of the spec).  Modelled from the spec: §4.4 step 3
(the `block_modes` crate is external to src/). -/
def decryptVec (decBlock : Bytes → Bytes) (iv data : Bytes) : Option Bytes :=
  if data.length % 16 = 0 then
    pkcs7Unpad ((cbcDecryptBlocks decBlock iv (toBlocks data)).flatten)
  else none

theorem pkcs7Pad_length_mod (pt : Bytes) : (pkcs7Pad pt).length % 16 = 0 := by
  have h := Nat.mod_lt pt.length (show 0 < 16 by norm_num)
  simp only [pkcs7Pad, List.length_append, List.length_replicate]
  omega

theorem pkcs7Unpad_pad (pt : Bytes) : pkcs7Unpad (pkcs7Pad pt) = some pt := by
  set n := 16 - pt.length % 16 with hn
  have hmod := Nat.mod_lt pt.length (show 0 < 16 by norm_num)
  have hn1 : 1 ≤ n := by omega
  have hn16 : n ≤ 16 := by omega
  obtain ⟨m, hm⟩ : ∃ m, n = m + 1 := ⟨n - 1, by omega⟩
  have hsplit : pkcs7Pad pt = (pt ++ List.replicate m n) ++ [n] := by
    rw [pkcs7Pad, ← hn, List.append_assoc]
    congr 1
    rw [hm, List.replicate_succ']
  have hlast : (pkcs7Pad pt).getLastD 0 = n := by
    rw [hsplit, List.getLastD_concat]
  have hlen : (pkcs7Pad pt).length = pt.length + n := by
    simp [pkcs7Pad, ← hn]
  have hdrop : (pkcs7Pad pt).drop ((pkcs7Pad pt).length - n) = List.replicate n n := by
    rw [hlen, Nat.add_sub_cancel, pkcs7Pad, ← hn]
    exact List.drop_left pt _
  have htake : (pkcs7Pad pt).take ((pkcs7Pad pt).length - n) = pt := by
    rw [hlen, Nat.add_sub_cancel, pkcs7Pad, ← hn]
    exact List.take_left pt _
  rw [pkcs7Unpad]
  simp only [hlast]
  rw [if_pos]
  · rw [htake]
  · refine ⟨hn1, hn16, by omega, ?_⟩
    rw [hdrop]
    simp [List.all_eq_true]

theorem pkcs7Unpad_some (bs m : Bytes) (h : pkcs7Unpad bs = some m) :
    ∃ n, 1 ≤ n ∧ n ≤ 16 ∧ bs = m ++ List.replicate n n := by
  rw [pkcs7Unpad] at h
  set n := bs.getLastD 0 with hn
  by_cases hcond : 1 ≤ n ∧ n ≤ 16 ∧ n ≤ bs.length ∧
      ((bs.drop (bs.length - n)).all (fun x => x == n) : Prop)
  · rw [if_pos hcond] at h
    obtain ⟨h1, h16, hle, hall⟩ := hcond
    refine ⟨n, h1, h16, ?_⟩
    have hm : m = bs.take (bs.length - n) := by
      injection h with h'; exact h'.symm
    have hdl : (bs.drop (bs.length - n)).length = n := by
      simp only [List.length_drop]; omega
    have hdrop_rep : bs.drop (bs.length - n) = List.replicate n n := by
      rw [List.eq_replicate_iff]
      refine ⟨hdl, ?_⟩
      intro b hb
      have := List.all_eq_true.mp hall b hb
      exact eq_of_beq this
    rw [hm, ← hdrop_rep, List.take_append_drop]
  · rw [if_neg hcond] at h; cases h

theorem cbc_blocks_roundtrip (encBlock decBlock : Bytes → Bytes)
    (hInv : ∀ b : Bytes, b.length = 16 → decBlock (encBlock b) = b)
    (hLen : ∀ b : Bytes, b.length = 16 → (encBlock b).length = 16) :
    ∀ (ps : List Bytes) (iv : Bytes), iv.length = 16 → (∀ p ∈ ps, p.length = 16) →
      cbcDecryptBlocks decBlock iv (cbcEncryptBlocks encBlock iv ps) = ps := by
  intro ps
  induction ps with
  | nil => intro iv _ _; rfl
  | cons p t ih =>
      intro iv hiv hall
      have hp : p.length = 16 := hall p (by simp)
      have hxlen : (zipXor iv p).length = 16 := by
        rw [zipXor_length, hiv, hp]; exact min_self 16
      have hclen : (encBlock (zipXor iv p)).length = 16 := hLen _ hxlen
      show zipXor (decBlock (encBlock (zipXor iv p))) iv ::
          cbcDecryptBlocks decBlock (encBlock (zipXor iv p))
            (cbcEncryptBlocks encBlock (encBlock (zipXor iv p)) t) = p :: t
      rw [hInv _ hxlen, zipXor_zipXor_left iv p (by rw [hiv, hp]),
        ih _ hclen (fun q hq => hall q (by simp [hq]))]

theorem cbcEncryptBlocks_all_sixteen (encBlock : Bytes → Bytes)
    (hLen : ∀ b : Bytes, b.length = 16 → (encBlock b).length = 16) :
    ∀ (ps : List Bytes) (iv : Bytes), iv.length = 16 → (∀ p ∈ ps, p.length = 16) →
      ∀ c ∈ cbcEncryptBlocks encBlock iv ps, c.length = 16 := by
  intro ps
  induction ps with
  | nil => intro iv _ _ c hc; cases hc
  | cons p t ih =>
      intro iv hiv hall c hc
      have hp : p.length = 16 := hall p (by simp)
      have hxlen : (zipXor iv p).length = 16 := by
        rw [zipXor_length, hiv, hp]; exact min_self 16
      have hclen : (encBlock (zipXor iv p)).length = 16 := hLen _ hxlen
      rcases List.mem_cons.mp hc with hc | hc
      · subst hc; exact hclen
      · exact ih _ hclen (fun q hq => hall q (by simp [hq])) c hc

theorem join_all_sixteen_mod (bs : List Bytes) (h : ∀ b ∈ bs, b.length = 16) :
    bs.flatten.length % 16 = 0 := by
  induction bs with
  | nil => simp
  | cons b t ih =>
      rw [List.flatten_cons, List.length_append, h b (by simp)]
      rw [Nat.add_mod, ih (fun x hx => h x (by simp [hx]))]

/-- Decrypting a CBC/PKCS#7 encryption with the inverse block map recovers
the plaintext. -/
theorem decryptVec_cbcEncrypt (encBlock decBlock : Bytes → Bytes)
    (hInv : ∀ b : Bytes, b.length = 16 → decBlock (encBlock b) = b)
    (hLen : ∀ b : Bytes, b.length = 16 → (encBlock b).length = 16)
    (iv pt : Bytes) (hiv : iv.length = 16) :
    decryptVec decBlock iv (cbcEncrypt encBlock iv pt) = some pt := by
  have hpadded : ∀ b ∈ toBlocks (pkcs7Pad pt), b.length = 16 :=
    toBlocks_all_sixteen _ (pkcs7Pad_length_mod pt)
  have hcsix : ∀ c ∈ cbcEncryptBlocks encBlock iv (toBlocks (pkcs7Pad pt)), c.length = 16 :=
    cbcEncryptBlocks_all_sixteen encBlock hLen _ iv hiv hpadded
  rw [decryptVec, cbcEncrypt, if_pos (join_all_sixteen_mod _ hcsix)]
  rw [toBlocks_join _ hcsix]
  rw [cbc_blocks_roundtrip encBlock decBlock hInv hLen _ iv hiv hpadded]
  rw [join_toBlocks, pkcs7Unpad_pad]

/-! ## Per-segment processing and the retry loop (lines 733-787) -/

/-- The body of one segment after the optional decryption step of the task
closure (lines 737-745): with no `DecryptionKey` the payload is used as-is;
otherwise the IV length is checked, the AES-128-CBC cipher is built from the
key and IV, and the body is decrypted with PKCS#7 unpadding.  `decFam k` is
the AES-128 block decryption under key `k` (the `aes` crate is external). -/
def processBody (decFam : Bytes → Bytes → Bytes) (key : Option (Bytes × Bytes))
    (data : Bytes) : Except DlErr Bytes :=
  match key with
  | none => .ok data
  | some (k, iv) =>
      if iv.length ≠ 16 then .error .ivLength
      else if k.length ≠ 16 then .error .cipherInit
      else
        match decryptVec (decFam k) iv data with
        | some m => .ok m
        | none => .error .decryption

/-- The per-segment attempt loop, `for attempt in 1..=retries` (lines
733-787): a 2xx response is processed and persisted under `segName idx`; any
other status or transport failure sleeps 2000 ms unless it was the last
allowed attempt; an exhausted budget fails the segment.  Returns the action
trace together with the task's result. -/
def segLoop (fetch : Nat → FetchOutcome) (process : Bytes → Except DlErr Bytes)
    (idx attempt retries : Nat) : List Act × Except DlErr Bytes :=
  if attempt ≤ retries then
    match fetch attempt with
    | .ok body =>
        match process body with
        | .ok buf => ([Act.get idx attempt, Act.write (segName idx) buf], .ok buf)
        | .error e => ([Act.get idx attempt], .error e)
    | _ =>
        if h2 : attempt < retries then
          let rest := segLoop fetch process idx (attempt + 1) retries
          (Act.get idx attempt :: Act.sleepMs 2000 :: rest.1, rest.2)
        else ([Act.get idx attempt], .error (.exhausted retries))
  else ([], .error (.exhausted retries))
termination_by retries + 1 - attempt
decreasing_by omega

/-- The trace of `k` consecutive failed attempts starting at `a`: each GET is
followed by the fixed 2000 ms backoff sleep. -/
def failActs (idx a k : Nat) : List Act :=
  (List.range' a k).flatMap (fun t => [Act.get idx t, Act.sleepMs 2000])

theorem failActs_zero (idx a : Nat) : failActs idx a 0 = [] := rfl

theorem failActs_succ (idx a k : Nat) :
    failActs idx a (k + 1) =
      Act.get idx a :: Act.sleepMs 2000 :: failActs idx (a + 1) k := by
  rw [failActs, List.range'_succ]
  rfl

theorem segLoop_success (fetch : Nat → FetchOutcome) (process : Bytes → Except DlErr Bytes)
    (idx attempt retries : Nat) (body buf : Bytes) (ha : attempt ≤ retries)
    (hf : fetch attempt = .ok body) (hp : process body = .ok buf) :
    segLoop fetch process idx attempt retries =
      ([Act.get idx attempt, Act.write (segName idx) buf], .ok buf) := by
  rw [segLoop]
  simp only [if_pos ha, hf, hp]

theorem segLoop_success_err (fetch : Nat → FetchOutcome) (process : Bytes → Except DlErr Bytes)
    (idx attempt retries : Nat) (body : Bytes) (e : DlErr) (ha : attempt ≤ retries)
    (hf : fetch attempt = .ok body) (hp : process body = .error e) :
    segLoop fetch process idx attempt retries = ([Act.get idx attempt], .error e) := by
  rw [segLoop]
  simp only [if_pos ha, hf, hp]

theorem segLoop_fail_step (fetch : Nat → FetchOutcome) (process : Bytes → Except DlErr Bytes)
    (idx attempt retries : Nat) (h1 : attempt < retries)
    (hf : (fetch attempt).isSuccess = false) :
    segLoop fetch process idx attempt retries =
      (Act.get idx attempt :: Act.sleepMs 2000 ::
        (segLoop fetch process idx (attempt + 1) retries).1,
       (segLoop fetch process idx (attempt + 1) retries).2) := by
  rw [segLoop]
  cases hfo : fetch attempt with
  | ok body => rw [hfo] at hf; simp [FetchOutcome.isSuccess] at hf
  | httpErr s => simp only [if_pos (Nat.le_of_lt h1), dif_pos h1]
  | connErr => simp only [if_pos (Nat.le_of_lt h1), dif_pos h1]

theorem segLoop_fail_last (fetch : Nat → FetchOutcome) (process : Bytes → Except DlErr Bytes)
    (idx retries : Nat) (hr : 0 < retries) (hf : (fetch retries).isSuccess = false) :
    segLoop fetch process idx retries retries =
      ([Act.get idx retries], .error (.exhausted retries)) := by
  rw [segLoop]
  cases hfo : fetch retries with
  | ok body => rw [hfo] at hf; simp [FetchOutcome.isSuccess] at hf
  | httpErr s => simp only [if_pos (le_refl retries), dif_neg (lt_irrefl retries)]
  | connErr => simp only [if_pos (le_refl retries), dif_neg (lt_irrefl retries)]

theorem segLoop_zero (fetch : Nat → FetchOutcome) (process : Bytes → Except DlErr Bytes)
    (idx : Nat) : segLoop fetch process idx 1 0 = ([], .error (.exhausted 0)) := by
  rw [segLoop]
  simp

/-- All attempts in `[a, a + k]` fail: the loop performs every attempt,
sleeping 2000 ms after each failure except the last, then gives up with the
exhausted-budget error. -/
theorem segLoop_all_fail (fetch : Nat → FetchOutcome) (process : Bytes → Except DlErr Bytes)
    (idx : Nat) : ∀ k a, 0 < a →
    (∀ t, a ≤ t → t ≤ a + k → (fetch t).isSuccess = false) →
    segLoop fetch process idx a (a + k) =
      (failActs idx a k ++ [Act.get idx (a + k)], .error (.exhausted (a + k))) := by
  intro k
  induction k with
  | zero =>
      intro a ha hfail
      rw [Nat.add_zero] at *
      rw [segLoop_fail_last fetch process idx a ha (hfail a le_rfl le_rfl)]
      rw [failActs_zero, List.nil_append]
  | succ k ih =>
      intro a ha hfail
      rw [segLoop_fail_step fetch process idx a (a + (k + 1)) (by omega)
        (hfail a le_rfl (by omega))]
      have hrec := ih (a + 1) (by omega) (fun t h1 h2 => hfail t (by omega) (by omega))
      rw [show a + 1 + k = a + (k + 1) by omega] at hrec
      rw [hrec, failActs_succ]
      rfl

/-- Attempts in `[a, a + k)` fail and attempt `a + k` succeeds: the loop
returns the processed payload and writes it, with a sleep after every failed
attempt and none after the successful one. -/
theorem segLoop_succ_after (fetch : Nat → FetchOutcome) (process : Bytes → Except DlErr Bytes)
    (idx : Nat) : ∀ k a (body buf : Bytes),
    (∀ t, a ≤ t → t < a + k → (fetch t).isSuccess = false) →
    fetch (a + k) = .ok body → process body = .ok buf →
    segLoop fetch process idx a (a + k) =
      (failActs idx a k ++ [Act.get idx (a + k), Act.write (segName idx) buf], .ok buf) := by
  intro k
  induction k with
  | zero =>
      intro a body buf _ hok hp
      rw [Nat.add_zero] at *
      rw [segLoop_success fetch process idx a a body buf le_rfl hok hp]
      rw [failActs_zero, List.nil_append]
  | succ k ih =>
      intro a body buf hfail hok hp
      rw [segLoop_fail_step fetch process idx a (a + (k + 1)) (by omega)
        (hfail a le_rfl (by omega))]
      have hrec := ih (a + 1) body buf (fun t h1 h2 => hfail t (by omega) (by omega))
        (by rw [show a + 1 + k = a + (k + 1) by omega]; exact hok) hp
      rw [show a + 1 + k = a + (k + 1) by omega] at hrec
      rw [hrec, failActs_succ]
      rfl

/-- `for task in tasks { task?? }` (lines 794-796): the first task error, if
any, aborts the run. -/
def firstErr : List (Except DlErr Bytes) → Except DlErr Unit
  | [] => .ok ()
  | .ok _ :: rest => firstErr rest
  | .error e :: _ => .error e

theorem firstErr_ok (l : List (Except DlErr Bytes))
    (h : ∀ x ∈ l, ∃ b, x = .ok b) : firstErr l = .ok () := by
  induction l with
  | nil => rfl
  | cons x t ih =>
      obtain ⟨b, hb⟩ := h x (by simp)
      subst hb
      exact ih (fun y hy => h y (by simp [hy]))

theorem firstErr_error (l : List (Except DlErr Bytes)) (e : DlErr)
    (h : Except.error e ∈ l) : ∃ e', firstErr l = .error e' := by
  induction l with
  | nil => cases h
  | cons x t ih =>
      rcases List.mem_cons.mp h with hx | hx
      · subst hx; exact ⟨e, rfl⟩
      · cases x with
        | ok b => exact ih hx
        | error e2 => exact ⟨e2, rfl⟩

/-! ## Playlist data model (the `m3u8_rs` structures the source consumes) -/

/-- `m3u8_rs::Resolution` (u64 width and height). -/
structure Resolution where
  width : Nat
  height : Nat
deriving DecidableEq

/-- `m3u8_rs::VariantStream`: the fields `hls2mp4_run` reads. -/
structure VariantStream where
  bandwidth : Nat
  resolution : Option Resolution
  uri : List Char
deriving DecidableEq

/-- `m3u8_rs::Key`: the fields `download_and_merge` reads. -/
structure SegKey where
  uri : Option (List Char)
  iv : Option (List Char)
deriving DecidableEq

/-- `m3u8_rs::MediaSegment`: the fields `download_and_merge` reads. -/
structure MediaSegment where
  uri : List Char
  key : Option SegKey
deriving DecidableEq

/-! ## IV hex decoding (line 690-694) -/

/-- `iv_hex.trim_start_matches("0x")`: strip every leading `0x` occurrence. -/
def stripHexPrefix : List Char → List Char
  | '0' :: 'x' :: rest => stripHexPrefix rest
  | l => l

/-- The value of one hex digit, `none` for a non-hex character. -/
def hexVal (c : Char) : Option Nat :=
  if '0' ≤ c ∧ c ≤ '9' then some (c.toNat - 48)
  else if 'a' ≤ c ∧ c ≤ 'f' then some (c.toNat - 87)
  else if 'A' ≤ c ∧ c ≤ 'F' then some (c.toNat - 55)
  else none

/-- `hex::decode`: pairs of hex digits to bytes; odd length or an invalid
character fails.  Modelled from the spec: the external `hex` crate. -/
def hexDecode : List Char → Option Bytes
  | [] => some []
  | [_] => none
  | c1 :: c2 :: rest => do
      let hi ← hexVal c1
      let lo ← hexVal c2
      let r ← hexDecode rest
      pure ((16 * hi + lo) :: r)

/-! ## URL handling (lines 464-477, 523-527, 681-685, 714-718)

The source keeps URLs in the external `url` crate's `Url` type.  `UrlM`
models the parsed shape `scheme://host/path?query` that the source
manipulates through `set_query` / `path` / `set_path` / `join`. -/

/-- A parsed URL: `scheme://host` followed by a path and an optional query. -/
structure UrlM where
  scheme : List Char
  host : List Char
  path : List Char
  query : Option (List Char)
deriving DecidableEq

/-- Serialize a `UrlM` back to its string `scheme://host/path?query`. -/
def renderUrl (u : UrlM) : List Char :=
  u.scheme ++ ':' :: '/' :: '/' ::
    (u.host ++ u.path ++
      (match u.query with
       | some q => '?' :: q
       | none => []))

/-- Split at the first occurrence of `c`: the part before it and, when `c`
occurs, the part after it. -/
def splitFirst (c : Char) (l : List Char) : List Char × Option (List Char) :=
  (l.takeWhile (fun x => x ≠ c),
   match l.dropWhile (fun x => x ≠ c) with
   | [] => none
   | _ :: r => some r)

/-- Modelled from the spec: a minimal `Url::parse` for `scheme://host/path?query`
strings, standing in for the external `url` crate (not part of src/). -/
def parseUrl (l : List Char) : Option UrlM :=
  match splitFirst ':' l with
  | (_, none) => none
  | (scheme, some rest) =>
      match rest with
      | '/' :: '/' :: hostRest =>
          if scheme = [] then none
          else
            let host := hostRest.takeWhile (fun x => x ≠ '/')
            let pathq := hostRest.dropWhile (fun x => x ≠ '/')
            if host = [] then none
            else
              match splitFirst '?' pathq with
              | (path, q) =>
                  some { scheme := scheme, host := host,
                         path := if path = [] then ['/'] else path, query := q }
      | _ => none

/-- `url.starts_with("http")` from line 464. -/
def startsWithHttp (l : List Char) : Bool := "http".data.isPrefixOf l

/-- `path.rfind('/')` followed by `path.truncate(pos + 1)` (lines 468-470):
the prefix of `l` up to and including its last `'/'`, `none` when `l` has no
slash. -/
def dirOfPath : List Char → Option (List Char)
  | [] => none
  | c :: cs =>
      match dirOfPath cs with
      | some d => some (c :: d)
      | none => if c = '/' then some [c] else none

/-- The `base_url` computation of `hls2mp4_run` (lines 464-477): only inputs
starting with `"http"` get a base; the query is dropped and the path is cut
just after its last `'/'`. -/
def computeBaseUrl (url : List Char) : Except DlErr (Option UrlM) :=
  if startsWithHttp url then
    match parseUrl url with
    | none => .error .parseErr
    | some u =>
        match dirOfPath u.path with
        | some d => .ok (some { u with path := d, query := none })
        | none => .ok none
  else .ok none

/-- Modelled from the spec: `Url::join` resolution of a URI against a base
whose path ends in `'/'` (the external `url` crate): an absolute URI (one
containing `':'`) stands alone, a root-relative URI replaces the path, and
a relative URI is appended to the base path. -/
def joinUrl (b : UrlM) (uri : List Char) : List Char :=
  if uri.any (fun x => x = ':') then uri
  else
    match uri with
    | '/' :: _ => b.scheme ++ "://".data ++ b.host ++ uri
    | _ => b.scheme ++ "://".data ++ b.host ++ b.path ++ uri

/-- Segment URI resolution (lines 714-718): against the base when present,
otherwise the segment URI is used as-is. -/
def resolveSegUri (base : Option UrlM) (uri : List Char) : List Char :=
  match base with
  | some b => joinUrl b uri
  | none => uri

/-! ## Key resolution (lines 674-703) -/

/-- The AES-128 key/IV resolution block of `download_and_merge`: it inspects
only the first segment; a missing key URI, a missing IV and an undecodable
IV hex string fail; the key bytes come from one GET against the resolved key
URL (`keyFetch`). -/
def resolveKey (segs : List MediaSegment) (base : Option UrlM)
    (keyFetch : List Char → Except DlErr Bytes) :
    Except DlErr (Option (Bytes × Bytes)) :=
  match segs with
  | [] => .ok none
  | s :: _ =>
      match s.key with
      | none => .ok none
      | some kd =>
          match kd.uri with
          | none => .error .missingKeyUri
          | some kuri =>
              let kurl : Except DlErr (List Char) :=
                match base with
                | some b => .ok (joinUrl b kuri)
                | none =>
                    match parseUrl kuri with
                    | some u => .ok (renderUrl u)
                    | none => .error .parseErr
              match kurl with
              | .error e => .error e
              | .ok kurlStr =>
                  match keyFetch kurlStr with
                  | .error e => .error e
                  | .ok keyBytes =>
                      match kd.iv with
                      | none => .error .missingIv
                      | some ivHex =>
                          match hexDecode (stripHexPrefix ivHex) with
                          | none => .error .ivHexInvalid
                          | some iv => .ok (some (keyBytes, iv))

/-! ## Variant selection (lines 502-513) -/

/-- The true resolution area `width * height`, 0 when no resolution is
present. -/
def trueArea (v : VariantStream) : Nat :=
  match v.resolution with
  | some r => r.width * r.height
  | none => 0

/-- The `max_by_key` key of line 505-511: `r.width * r.height` is a `u64`
product, so it wraps modulo `2 ^ 64`; the tie-break component is the
bandwidth. -/
def variantKey (v : VariantStream) : Nat × Nat :=
  ((match v.resolution with
    | some r => (r.width * r.height) % 2 ^ 64
    | none => 0),
   v.bandwidth)

/-- Strict lexicographic greater-than on `(area, bandwidth)` keys, matching
the derived `Ord` on Rust tuples. -/
def lexGt (a b : Nat × Nat) : Bool :=
  decide (b.1 < a.1 ∨ (a.1 = b.1 ∧ b.2 < a.2))

/-- Lexicographic less-or-equal on keys (the complement of `lexGt`). -/
def lexLe (a b : Nat × Nat) : Prop :=
  a.1 < b.1 ∨ (a.1 = b.1 ∧ a.2 ≤ b.2)

theorem lexLe_of_not_lexGt (a b : Nat × Nat) (h : lexGt a b = false) : lexLe a b := by
  rw [lexGt, decide_eq_false_iff_not] at h
  rw [lexLe]
  omega

theorem lexLe_refl (a : Nat × Nat) : lexLe a a := Or.inr ⟨rfl, le_refl _⟩

theorem lexLe_trans (a b c : Nat × Nat) (h1 : lexLe a b) (h2 : lexLe b c) : lexLe a c := by
  rw [lexLe] at *
  omega

/-- One step of `Iterator::max_by_key`: keep the accumulator only when its
key is strictly greater, so the *last* maximal element wins ties. -/
def maxStep (acc y : VariantStream) : VariantStream :=
  if lexGt (variantKey acc) (variantKey y) then acc else y

/-- `master.variants.iter().max_by_key(...)` followed by
`.ok_or_else(|| anyhow!("No usable variant found"))` (lines 502-513). -/
def selectVariant (vs : List VariantStream) : Except DlErr VariantStream :=
  match vs with
  | [] => .error .noVariant
  | x :: xs => .ok (xs.foldl maxStep x)

theorem foldl_maxStep_spec (xs : List VariantStream) : ∀ x : VariantStream,
    xs.foldl maxStep x ∈ x :: xs ∧
      ∀ y ∈ x :: xs, lexLe (variantKey y) (variantKey (xs.foldl maxStep x)) := by
  induction xs with
  | nil =>
      intro x
      exact ⟨by simp, by intro y hy; simp at hy; subst hy; exact lexLe_refl _⟩
  | cons z t ih =>
      intro x
      rw [List.foldl_cons]
      obtain ⟨hmem, hmax⟩ := ih (maxStep x z)
      have hstep_mem : maxStep x z = x ∨ maxStep x z = z := by
        rw [maxStep]
        by_cases h : lexGt (variantKey x) (variantKey z) = true
        · rw [if_pos h]; exact Or.inl rfl
        · rw [if_neg h]; exact Or.inr rfl
      have hstep_x : lexLe (variantKey x) (variantKey (maxStep x z)) := by
        rw [maxStep]
        by_cases h : lexGt (variantKey x) (variantKey z) = true
        · rw [if_pos h]; exact lexLe_refl _
        · rw [if_neg h]
          exact lexLe_of_not_lexGt _ _ (Bool.not_eq_true _ ▸ (by simpa using h))
      have hstep_z : lexLe (variantKey z) (variantKey (maxStep x z)) := by
        rw [maxStep]
        by_cases h : lexGt (variantKey x) (variantKey z) = true
        · rw [if_pos h]
          rw [lexGt, decide_eq_true_eq] at h
          rw [lexLe]
          omega
        · rw [if_neg h]; exact lexLe_refl _
      constructor
      · rcases List.mem_cons.mp hmem with hm | hm
        · rw [hm]
          rcases hstep_mem with he | he
          · rw [he]; exact List.mem_cons_self _ _
          · rw [he]; exact List.mem_cons_of_mem _ (List.mem_cons_self _ _)
        · exact List.mem_cons_of_mem _ (List.mem_cons_of_mem _ hm)
      · intro y hy
        rcases List.mem_cons.mp hy with hy | hy
        · rw [hy]
          exact lexLe_trans _ _ _ hstep_x (hmax (maxStep x z) (List.mem_cons_self _ _))
        · rcases List.mem_cons.mp hy with hy | hy
          · rw [hy]
            exact lexLe_trans _ _ _ hstep_z (hmax (maxStep x z) (List.mem_cons_self _ _))
          · exact hmax y (List.mem_cons_of_mem _ hy)

/-! ## The merge loop (lines 809-826) -/

/-- The merge iteration over the index list: read `seg_{i:05}.ts`, append its
bytes to the accumulated output, delete the file.  A missing file aborts
(the `fs::read` context error of line 816-818). -/
def mergeAux (fs : Fs) (idxs : List Nat) (acc : Bytes) : Except DlErr (Bytes × Fs) :=
  match idxs with
  | [] => .ok (acc, fs)
  | i :: rest =>
      match fs (segName i) with
      | none => .error (.missingSegment i)
      | some chunk => mergeAux (fsErase (segName i) fs) rest (acc ++ chunk)

/-- `for i in 0..total` of lines 812-826. -/
def mergeRun (total : Nat) (fs : Fs) : Except DlErr (Bytes × Fs) :=
  mergeAux fs (List.range total) []

theorem fsErase_ne (name m : List Char) (fs : Fs) (h : m ≠ name) :
    fsErase name fs m = fs m := by
  simp [fsErase, h]

theorem mergeAux_spec (payload : Nat → Bytes) : ∀ (idxs : List Nat) (fs : Fs) (acc : Bytes),
    (∀ i ∈ idxs, fs (segName i) = some (payload i)) → idxs.Nodup →
    ∃ fs', mergeAux fs idxs acc = .ok (acc ++ (idxs.map payload).flatten, fs') ∧
      (∀ i ∈ idxs, fs' (segName i) = none) ∧
      (∀ m : List Char, m ∉ idxs.map segName → fs' m = fs m) := by
  intro idxs
  induction idxs with
  | nil =>
      intro fs acc _ _
      exact ⟨fs, by simp [mergeAux], by simp, fun m _ => rfl⟩
  | cons i rest ih =>
      intro fs acc hhave hnd
      have hi : fs (segName i) = some (payload i) := hhave i (by simp)
      have hnotin : i ∉ rest := (List.nodup_cons.mp hnd).1
      have hrest : ∀ j ∈ rest, fsErase (segName i) fs (segName j) = some (payload j) := by
        intro j hj
        have hne : segName j ≠ segName i := by
          intro e
          exact hnotin (segName_injective e ▸ hj)
        rw [fsErase_ne _ _ _ hne]
        exact hhave j (by simp [hj])
      obtain ⟨fs', hrun, hnone, hother⟩ :=
        ih (fsErase (segName i) fs) (acc ++ payload i) hrest (List.nodup_cons.mp hnd).2
      refine ⟨fs', ?_, ?_, ?_⟩
      · rw [mergeAux, hi]
        show mergeAux (fsErase (segName i) fs) rest (acc ++ payload i) =
          Except.ok (acc ++ (List.map payload (i :: rest)).flatten, fs')
        rw [hrun]
        simp [List.append_assoc]
      · intro j hj
        rcases List.mem_cons.mp hj with hj | hj
        · subst hj
          have hnm : segName j ∉ rest.map segName := by
            intro hmem
            obtain ⟨k, hk, he⟩ := List.mem_map.mp hmem
            exact hnotin (segName_injective he ▸ hk)
          rw [hother _ hnm]
          simp [fsErase]
        · exact hnone j hj
      · intro m hm
        have hm1 : m ∉ rest.map segName := fun e => hm (by simp [e])
        have hm2 : m ≠ segName i := fun e => hm (by simp [e])
        rw [hother m hm1, fsErase_ne _ _ _ hm2]

theorem mergeAux_missing : ∀ (idxs : List Nat) (fs : Fs) (acc : Bytes) (j : Nat),
    j ∈ idxs → fs (segName j) = none → ∃ e, mergeAux fs idxs acc = .error e := by
  intro idxs
  induction idxs with
  | nil => intro fs acc j h _; cases h
  | cons k rest ih =>
      intro fs acc j hj hnone
      cases hk : fs (segName k) with
      | none => exact ⟨.missingSegment k, by rw [mergeAux, hk]⟩
      | some chunk =>
          have hjk : j ≠ k := by
            intro e
            rw [e, hk] at hnone
            cases hnone
          have hjrest : j ∈ rest := by
            rcases List.mem_cons.mp hj with h | h
            · exact absurd h hjk
            · exact h
          have hnone2 : fsErase (segName k) fs (segName j) = none := by
            by_cases hsn : segName j = segName k
            · simp [fsErase, hsn]
            · simp [fsErase, hsn, hnone]
          obtain ⟨e, he⟩ := ih (fsErase (segName k) fs) (acc ++ chunk) j hjrest hnone2
          refine ⟨e, ?_⟩
          rw [mergeAux, hk]
          exact he

/-! ## The composed download-and-merge pipeline (lines 643-830)

The network is an oracle: `keyFetch url` is the key GET, `fetchFor i t` is
attempt `t` of segment `i`'s GET.  Completion order of the concurrent tasks
is an arbitrary permutation `order` of the indices — it determines only the
order in which the per-segment temp files are written. -/

/-- The result of one spawned segment task (lines 727-788): trace of its
actions paired with its `Result`. -/
def segResult (decFam : Bytes → Bytes → Bytes) (key : Option (Bytes × Bytes))
    (fetchFor : Nat → Nat → FetchOutcome) (retries i : Nat) :
    List Act × Except DlErr Bytes :=
  segLoop (fetchFor i) (processBody decFam key) i 1 retries

/-- The payload a successful task persisted. -/
def exceptBytes : Except DlErr Bytes → Bytes
  | .ok b => b
  | .error _ => []

/-- `download_and_merge` (lines 643-830): reject an empty playlist, resolve
the key from the first segment, run every segment's bounded-retry task,
collect the task results in completion order (`buffer_unordered` followed by
`for task in tasks { task?? }`, lines 790-796, yields them in the order
`order` in which the tasks complete) aborting on the first collected
failure, and otherwise merge the temp files in index order.  Returns the
action trace, the final temp-file store, and the merged output or the
error. -/
def runPipeline (decFam : Bytes → Bytes → Bytes) (segs : List MediaSegment)
    (base : Option UrlM) (keyFetch : List Char → Except DlErr Bytes)
    (fetchFor : Nat → Nat → FetchOutcome) (retries : Nat) (order : List Nat) :
    List Act × Fs × Except DlErr Bytes :=
  if segs.length = 0 then ([], fsEmpty, .error .noSegments)
  else
    match resolveKey segs base keyFetch with
    | .error e => ([], fsEmpty, .error e)
    | .ok key =>
        let trace := ((List.range segs.length).map
          (fun i => (segResult decFam key fetchFor retries i).1)).flatten
        match firstErr (order.map
          (fun i => (segResult decFam key fetchFor retries i).2)) with
        | .error e => (trace, fsEmpty, .error e)
        | .ok _ =>
            let fs := applyWrites order
              (fun i => exceptBytes (segResult decFam key fetchFor retries i).2) fsEmpty
            match mergeRun segs.length fs with
            | .error e => (trace, fs, .error e)
            | .ok (out, fs2) => (trace, fs2, .ok out)

/-- Pipeline success under per-segment first-attempt success: every segment's
processed payload lands in the output, concatenated strictly in index order,
independently of the completion order, and every temp file is deleted. -/
theorem runPipeline_ok (decFam : Bytes → Bytes → Bytes) (segs : List MediaSegment)
    (base : Option UrlM) (keyFetch : List Char → Except DlErr Bytes)
    (fetchFor : Nat → Nat → FetchOutcome) (retries : Nat) (order : List Nat)
    (okey : Option (Bytes × Bytes)) (bodies decoded : Nat → Bytes)
    (hres : resolveKey segs base keyFetch = .ok okey)
    (hN : 0 < segs.length)
    (hf : ∀ i, i < segs.length → fetchFor i 1 = .ok (bodies i))
    (hp : ∀ i, i < segs.length → processBody decFam okey (bodies i) = .ok (decoded i))
    (hord : order.Perm (List.range segs.length))
    (hr : 1 ≤ retries) :
    ∃ tr fs', runPipeline decFam segs base keyFetch fetchFor retries order =
        (tr, fs', .ok ((List.range segs.length).map decoded).flatten) ∧
      ∀ i, i < segs.length → fs' (segName i) = none := by
  have hseg : ∀ i, i < segs.length →
      segResult decFam okey fetchFor retries i =
        ([Act.get i 1, Act.write (segName i) (decoded i)], .ok (decoded i)) := by
    intro i hi
    rw [segResult]
    exact segLoop_success _ _ i 1 retries (bodies i) (decoded i) hr (hf i hi) (hp i hi)
  have hfe : firstErr (order.map
      (fun i => (segResult decFam okey fetchFor retries i).2)) = .ok () := by
    apply firstErr_ok
    intro x hx
    obtain ⟨i, hi, he⟩ := List.mem_map.mp hx
    have hilt : i < segs.length := List.mem_range.mp (hord.mem_iff.mp hi)
    rw [hseg i hilt] at he
    exact ⟨decoded i, he.symm⟩
  have hnodup : order.Nodup := hord.nodup_iff.mpr (List.nodup_range _)
  have hfs : ∀ i, i < segs.length →
      applyWrites order
        (fun i => exceptBytes (segResult decFam okey fetchFor retries i).2) fsEmpty
        (segName i) = some (decoded i) := by
    intro i hi
    have hmem : i ∈ order := hord.mem_iff.mpr (List.mem_range.mpr hi)
    rw [applyWrites_mem order _ i hmem hnodup fsEmpty]
    rw [hseg i hi]
    rfl
  obtain ⟨fs', hmerge, hnone, _⟩ := mergeAux_spec decoded (List.range segs.length)
    (applyWrites order (fun i => exceptBytes (segResult decFam okey fetchFor retries i).2)
      fsEmpty) []
    (fun i hi => hfs i (List.mem_range.mp hi)) (List.nodup_range _)
  rw [runPipeline, if_neg (by omega), hres]
  simp only [hfe, mergeRun]
  rw [hmerge]
  exact ⟨_, fs', rfl, fun i hi => hnone i (List.mem_range.mpr hi)⟩

/-! ## The bounded worker pool (lines 705-731, 790-792)

`Semaphore::new(concurrency)` with `sem.acquire().await` at the top of every
task and release on task exit (`_permit` drop).  The tokio scheduler is
abstracted as an arbitrary interleaving: a task may enter flight only while
fewer than `K` tasks hold a permit, and leaves flight when it completes. -/

/-- The lifecycle of one segment task with respect to its semaphore permit. -/
inductive TaskPhase where
  /-- spawned, still waiting in `sem.acquire()`. -/
  | pending
  /-- holding a permit: fetching / decrypting / persisting. -/
  | running
  /-- finished, permit released. -/
  | done
deriving DecidableEq

/-- How many tasks hold a permit. -/
def countRunning (l : List TaskPhase) : Nat :=
  l.countP (fun p => p == TaskPhase.running)

/-- One scheduler step of the download phase with semaphore size `K`. -/
inductive PoolStep (K : Nat) : List TaskPhase → List TaskPhase → Prop
  /-- `sem.acquire().await` succeeds: only possible while fewer than `K`
  permits are out. -/
  | acquire (l : List TaskPhase) (i : Nat) (hi : l.get? i = some TaskPhase.pending)
      (hcap : countRunning l < K) : PoolStep K l (l.set i TaskPhase.running)
  /-- a task finishes and its `_permit` is dropped. -/
  | release (l : List TaskPhase) (i : Nat) (hi : l.get? i = some TaskPhase.running) :
      PoolStep K l (l.set i TaskPhase.done)

/-- States reachable from `N` freshly spawned tasks. -/
def PoolReach (K N : Nat) (l : List TaskPhase) : Prop :=
  Relation.ReflTransGen (PoolStep K) (List.replicate N TaskPhase.pending) l

theorem countRunning_set (l : List TaskPhase) : ∀ (i : Nat) (v w : TaskPhase),
    l.get? i = some v →
    countRunning (l.set i w) + (if v == TaskPhase.running then 1 else 0) =
      countRunning l + (if w == TaskPhase.running then 1 else 0) := by
  induction l with
  | nil => intro i v w h; simp at h
  | cons a t ih =>
      intro i v w h
      cases i with
      | zero =>
          simp only [List.get?] at h
          injection h with h
          subst h
          simp only [List.set, countRunning, List.countP_cons]
          omega
      | succ j =>
          simp only [List.get?] at h
          have := ih j v w h
          simp only [List.set, countRunning, List.countP_cons] at *
          omega

theorem countRunning_replicate_pending (N : Nat) :
    countRunning (List.replicate N TaskPhase.pending) = 0 := by
  induction N with
  | zero => rfl
  | succ n ih =>
      rw [List.replicate_succ, countRunning, List.countP_cons]
      rw [countRunning] at ih
      simp [ih]

/-- The semaphore invariant: every reachable state of the download phase has
at most `K` tasks in flight. -/
theorem poolReach_countRunning_le (K N : Nat) (l : List TaskPhase)
    (h : PoolReach K N l) : countRunning l ≤ K := by
  induction h with
  | refl => rw [countRunning_replicate_pending]; omega
  | tail _ step ih =>
      cases step with
      | acquire i hi hcap =>
          have := countRunning_set _ i TaskPhase.pending TaskPhase.running hi
          simp at this
          omega
      | release i hi =>
          have := countRunning_set _ i TaskPhase.running TaskPhase.done hi
          simp at this
          omega

/-! ## The retries clamp (lines 426-427)

`let retries = retries.max(1) as u8;`: an `i32`, clamped below to 1, then
truncated to `u8` — i.e. reduced modulo 256. -/

/-- `retries.max(1) as u8` on an `i32` input. -/
def clampRetries (r : Int) : Nat := (max r 1).toNat % 256

/-- Number of GET attempts recorded in a trace. -/
def countGets (tr : List Act) : Nat := tr.countP Act.isGet

theorem countGets_failActs (idx : Nat) : ∀ k a, countGets (failActs idx a k) = k := by
  intro k
  induction k with
  | zero => intro a; rfl
  | succ k ih =>
      intro a
      rw [failActs_succ, countGets, List.countP_cons, List.countP_cons]
      have := ih (a + 1)
      rw [countGets] at this
      simp [this, Act.isGet]

theorem countGets_append (t1 t2 : List Act) :
    countGets (t1 ++ t2) = countGets t1 + countGets t2 :=
  List.countP_append _ _ _

/-! ## Parser/printer lemmas for the URL model -/

theorem takeWhile_ne_append (c : Char) : ∀ (a b : List Char), c ∉ a →
    List.takeWhile (fun x => x ≠ c) (a ++ c :: b) = a := by
  intro a
  induction a with
  | nil =>
      intro b _
      simp [List.takeWhile_cons]
  | cons x t ih =>
      intro b h
      have hx : x ≠ c := fun e => h (by simp [e])
      have ht : c ∉ t := fun e => h (by simp [e])
      simp only [List.cons_append, List.takeWhile_cons, decide_eq_true_eq]
      rw [if_pos hx, ih b ht]

theorem dropWhile_ne_append (c : Char) : ∀ (a b : List Char), c ∉ a →
    List.dropWhile (fun x => x ≠ c) (a ++ c :: b) = c :: b := by
  intro a
  induction a with
  | nil =>
      intro b _
      simp [List.dropWhile_cons]
  | cons x t ih =>
      intro b h
      have hx : x ≠ c := fun e => h (by simp [e])
      have ht : c ∉ t := fun e => h (by simp [e])
      simp only [List.cons_append, List.dropWhile_cons, decide_eq_true_eq]
      rw [if_pos hx, ih b ht]

theorem takeWhile_ne_all (c : Char) : ∀ l : List Char, c ∉ l →
    List.takeWhile (fun x => x ≠ c) l = l := by
  intro l
  induction l with
  | nil => intro _; rfl
  | cons x t ih =>
      intro h
      have hx : x ≠ c := fun e => h (by simp [e])
      have ht : c ∉ t := fun e => h (by simp [e])
      simp only [List.takeWhile_cons, decide_eq_true_eq]
      rw [if_pos hx, ih ht]

theorem dropWhile_ne_all (c : Char) : ∀ l : List Char, c ∉ l →
    List.dropWhile (fun x => x ≠ c) l = [] := by
  intro l
  induction l with
  | nil => intro _; rfl
  | cons x t ih =>
      intro h
      have hx : x ≠ c := fun e => h (by simp [e])
      have ht : c ∉ t := fun e => h (by simp [e])
      simp only [List.dropWhile_cons, decide_eq_true_eq]
      rw [if_pos hx, ih ht]

theorem splitFirst_occ (c : Char) (a b : List Char) (h : c ∉ a) :
    splitFirst c (a ++ c :: b) = (a, some b) := by
  rw [splitFirst, takeWhile_ne_append c a b h, dropWhile_ne_append c a b h]

theorem splitFirst_no_occ (c : Char) (l : List Char) (h : c ∉ l) :
    splitFirst c l = (l, none) := by
  rw [splitFirst, takeWhile_ne_all c l h, dropWhile_ne_all c l h]

/-- Well-formedness of a URL shape sufficient for the round-trip with the
modelled parser. -/
def UrlWF (u : UrlM) : Prop :=
  u.scheme ≠ [] ∧ ':' ∉ u.scheme ∧ u.host ≠ [] ∧ '/' ∉ u.host ∧
    (∃ p, u.path = '/' :: p) ∧ '?' ∉ u.path

theorem parseUrl_renderUrl (u : UrlM) (h : UrlWF u) : parseUrl (renderUrl u) = some u := by
  obtain ⟨hs, hsc, hh, hhs, ⟨p, hpath⟩, hq⟩ := h
  have hsplit1 : splitFirst ':' (renderUrl u) =
      (u.scheme, some ('/' :: '/' ::
        (u.host ++ u.path ++ (match u.query with
          | some q => '?' :: q
          | none => [])))) := by
    rw [renderUrl]
    exact splitFirst_occ ':' u.scheme _ hsc
  rw [parseUrl, hsplit1]
  simp only [if_neg hs]
  have hassoc : u.host ++ u.path ++ (match u.query with
      | some q => '?' :: q
      | none => []) = u.host ++ '/' :: (p ++ (match u.query with
      | some q => '?' :: q
      | none => [])) := by
    rw [hpath]
    simp [List.append_assoc]
  rw [hassoc]
  rw [takeWhile_ne_append '/' u.host _ hhs, dropWhile_ne_append '/' u.host _ hhs]
  simp only [if_neg hh]
  have hback : '/' :: (p ++ (match u.query with
      | some q => '?' :: q
      | none => [])) = u.path ++ (match u.query with
      | some q => '?' :: q
      | none => []) := by
    rw [hpath]; rfl
  rw [hback]
  cases hqv : u.query with
  | none =>
      simp only [List.append_nil]
      rw [splitFirst_no_occ '?' u.path hq]
      have hpne : u.path ≠ [] := by rw [hpath]; simp
      simp only [if_neg hpne]
      exact congrArg some (by rw [← hqv])
  | some q =>
      rw [splitFirst_occ '?' u.path q hq]
      have hpne : u.path ≠ [] := by rw [hpath]; simp
      simp only [if_neg hpne]
      exact congrArg some (by rw [← hqv])

theorem dirOfPath_none_iff : ∀ l : List Char, dirOfPath l = none ↔ '/' ∉ l := by
  intro l
  induction l with
  | nil => simp [dirOfPath]
  | cons c cs ih =>
      rw [dirOfPath]
      cases hrec : dirOfPath cs with
      | some d =>
          simp only []
          constructor
          · intro h; cases h
          · intro h
            have : '/' ∈ cs := by
              by_contra hn
              rw [← ih] at hn
              rw [hn] at hrec
              cases hrec
            exact absurd (by simp [this]) h
      | none =>
          simp only []
          by_cases hc : c = '/'
          · rw [if_pos hc]
            constructor
            · intro h; cases h
            · intro h; exact absurd (by simp [hc]) h
          · rw [if_neg hc]
            have hcs : '/' ∉ cs := (ih).mp hrec
            constructor
            · intro _
              intro hmem
              rcases List.mem_cons.mp hmem with he | he
              · exact hc he.symm
              · exact hcs he
            · intro _; rfl

theorem dirOfPath_some_spec : ∀ (l d : List Char), dirOfPath l = some d →
    ∃ t, l = d ++ t ∧ '/' ∉ t ∧ d.getLast? = some '/' := by
  intro l
  induction l with
  | nil => intro d h; cases h
  | cons c cs ih =>
      intro d h
      rw [dirOfPath] at h
      cases hrec : dirOfPath cs with
      | some d' =>
          rw [hrec] at h
          injection h with h
          obtain ⟨t, ht, hmem, hlast⟩ := ih d' hrec
          refine ⟨t, by rw [← h, ht]; rfl, hmem, ?_⟩
          rw [← h]
          have hd' : d' ≠ [] := by
            intro e
            rw [e] at hlast
            cases hlast
          obtain ⟨x, d'', hxd⟩ := List.exists_cons_of_ne_nil hd'
          rw [hxd]
          rw [List.getLast?_cons_cons]
          rw [hxd] at hlast
          exact hlast
      | none =>
          rw [hrec] at h
          by_cases hc : c = '/'
          · rw [if_pos hc] at h
            injection h with h
            refine ⟨cs, by rw [← h, hc]; rfl, (dirOfPath_none_iff cs).mp hrec, ?_⟩
            rw [← h, hc]
            rfl
          · rw [if_neg hc] at h
            cases h

theorem dirOfPath_some_of_mem : ∀ l : List Char, '/' ∈ l → ∃ d, dirOfPath l = some d := by
  intro l hmem
  by_contra hn
  push_neg at hn
  have : dirOfPath l = none := by
    cases hd : dirOfPath l with
    | none => rfl
    | some d => exact absurd hd (hn d)
  exact (dirOfPath_none_iff l).mp this hmem

theorem startsWithHttp_renderUrl (u : UrlM) (h : "http".data.isPrefixOf u.scheme) :
    startsWithHttp (renderUrl u) = true := by
  rw [startsWithHttp, List.isPrefixOf_iff_prefix]
  have h1 : "http".data <+: u.scheme := List.isPrefixOf_iff_prefix.mp h
  calc "http".data <+: u.scheme := h1
    _ <+: renderUrl u := by rw [renderUrl]; exact List.prefix_append _ _

theorem variantKey_eq_of_lt (v : VariantStream) (h : trueArea v < 2 ^ 64) :
    variantKey v = (trueArea v, v.bandwidth) := by
  rw [variantKey, trueArea] at *
  cases hres : v.resolution with
  | none => rfl
  | some r =>
      rw [hres] at h
      simp only [Nat.mod_eq_of_lt h]

/-! # The claims -/

/-- C1: for every media playlist with `N` segments and no encryption, the
merged output is the byte-exact concatenation of the per-segment payloads in
index order `0..N-1`, regardless of the order in which downloads complete
(`order` is an arbitrary permutation of the indices); the merge locates each
payload solely via `segName` and every temp file is deleted afterwards. -/
theorem C1_merge_ordered_concat (decFam : Bytes → Bytes → Bytes)
    (segs : List MediaSegment) (base : Option UrlM)
    (keyFetch : List Char → Except DlErr Bytes) (fetchFor : Nat → Nat → FetchOutcome)
    (retries : Nat) (order : List Nat) (bodies : Nat → Bytes)
    (hN : 0 < segs.length)
    (hkey : ∀ s, segs.head? = some s → s.key = none)
    (hf : ∀ i, i < segs.length → fetchFor i 1 = .ok (bodies i))
    (hord : order.Perm (List.range segs.length))
    (hr : 1 ≤ retries) :
    ∃ tr fs', runPipeline decFam segs base keyFetch fetchFor retries order =
        (tr, fs', .ok ((List.range segs.length).map bodies).flatten) ∧
      ∀ i, i < segs.length → fs' (segName i) = none := by
  obtain ⟨s, t, hst⟩ : ∃ s t, segs = s :: t := by
    cases segs with
    | nil => simp at hN
    | cons s t => exact ⟨s, t, rfl⟩
  have hks : s.key = none := hkey s (by rw [hst]; rfl)
  have hres : resolveKey segs base keyFetch = .ok none := by
    rw [hst]
    simp [resolveKey, hks]
  exact runPipeline_ok decFam segs base keyFetch fetchFor retries order none bodies bodies
    hres hN hf (fun i _ => rfl) hord hr

/-- Witness for C1: two segments with bodies `[0]` and `[1]`, completion
order `[1, 0]` (out of index order), merged output `[0] ++ [1]`. -/
theorem C1_witness :
    (0 < ([⟨"a.ts".data, none⟩, ⟨"b.ts".data, none⟩] : List MediaSegment).length) ∧
    ([1, 0].Perm (List.range 2)) ∧
    (∃ tr fs', runPipeline (fun _ b => b)
        [⟨"a.ts".data, none⟩, ⟨"b.ts".data, none⟩] none
        (fun _ => .error .transport) (fun i _ => .ok [i]) 1 [1, 0] =
        (tr, fs', .ok ((List.range 2).map (fun i => [i])).flatten) ∧
      ∀ i, i < 2 → fs' (segName i) = none) :=
  ⟨by decide, by decide,
    C1_merge_ordered_concat (fun _ b => b)
      [⟨"a.ts".data, none⟩, ⟨"b.ts".data, none⟩] none
      (fun _ => .error .transport) (fun i _ => .ok [i]) 1 [1, 0] (fun i => [i])
      (by decide)
      (by intro s hs; cases hs; rfl)
      (fun i _ => rfl)
      (by decide)
      (by decide)⟩

/-- C2: for a master playlist the selected variant maximizes the pair
(resolution area with wrap-around as computed, bandwidth) lexicographically —
stated against the true area under the no-overflow hypothesis — and an empty
variant list fails with the no-variant error. -/
theorem C2_variant_selection (vs : List VariantStream)
    (hA : ∀ v ∈ vs, trueArea v < 2 ^ 64) :
    (vs = [] → selectVariant vs = .error .noVariant) ∧
    (vs ≠ [] → ∃ v, selectVariant vs = .ok v ∧ v ∈ vs ∧
      ∀ w ∈ vs, trueArea w < trueArea v ∨
        (trueArea w = trueArea v ∧ w.bandwidth ≤ v.bandwidth)) := by
  constructor
  · intro h; rw [h]; rfl
  · intro h
    obtain ⟨x, xs, hvs⟩ := List.exists_cons_of_ne_nil h
    subst hvs
    obtain ⟨hmem, hmax⟩ := foldl_maxStep_spec xs x
    refine ⟨xs.foldl maxStep x, rfl, hmem, ?_⟩
    intro w hw
    have hle := hmax w hw
    rw [variantKey_eq_of_lt w (hA w hw),
      variantKey_eq_of_lt (xs.foldl maxStep x) (hA _ hmem)] at hle
    simpa [lexLe] using hle

/-- Witness for C2: the §8 scenario — 640×360 @ 500000 bps against
1280×720 @ 1200000 bps selects a maximal variant. -/
theorem C2_witness :
    (∀ v ∈ ([⟨500000, some ⟨640, 360⟩, "lo.m3u8".data⟩,
             ⟨1200000, some ⟨1280, 720⟩, "hi.m3u8".data⟩] : List VariantStream),
      trueArea v < 2 ^ 64) ∧
    (∃ v, selectVariant [⟨500000, some ⟨640, 360⟩, "lo.m3u8".data⟩,
             ⟨1200000, some ⟨1280, 720⟩, "hi.m3u8".data⟩] = .ok v ∧
      v ∈ ([⟨500000, some ⟨640, 360⟩, "lo.m3u8".data⟩,
            ⟨1200000, some ⟨1280, 720⟩, "hi.m3u8".data⟩] : List VariantStream) ∧
      ∀ w ∈ ([⟨500000, some ⟨640, 360⟩, "lo.m3u8".data⟩,
              ⟨1200000, some ⟨1280, 720⟩, "hi.m3u8".data⟩] : List VariantStream),
        trueArea w < trueArea v ∨
          (trueArea w = trueArea v ∧ w.bandwidth ≤ v.bandwidth)) :=
  ⟨by decide,
    (C2_variant_selection _ (by decide)).2 (by decide)⟩

/-- C3: with `maxAttempts = n ≥ 1`, an endpoint failing on attempts
`1..n-1` and succeeding on attempt `n` yields a persisted segment with no
error; one failing on all `n` attempts fails that segment with the
exhausted-budget error and makes the overall run fail; a fixed 2000 ms sleep
separates consecutive attempts, with no sleep after the last attempt. -/
theorem C3_retry_semantics (n : Nat) (hn : 1 ≤ n) (idx jdx : Nat)
    (f1 f2 : Nat → FetchOutcome) (process : Bytes → Except DlErr Bytes)
    (body buf : Bytes) (rs : List (Except DlErr Bytes))
    (h1 : ∀ t, 1 ≤ t → t < n → (f1 t).isSuccess = false)
    (h2 : f1 n = .ok body) (hp : process body = .ok buf)
    (h3 : ∀ t, (f2 t).isSuccess = false)
    (hj : (segLoop f2 process jdx 1 n).2 ∈ rs) :
    segLoop f1 process idx 1 n =
      (failActs idx 1 (n - 1) ++ [Act.get idx n, Act.write (segName idx) buf], .ok buf) ∧
    segLoop f2 process jdx 1 n =
      (failActs jdx 1 (n - 1) ++ [Act.get jdx n], .error (.exhausted n)) ∧
    (∃ e', firstErr rs = .error e') ∧
    (∀ (decFam : Bytes → Bytes → Bytes) (segs : List MediaSegment) (base : Option UrlM)
       (keyFetch : List Char → Except DlErr Bytes) (okey : Option (Bytes × Bytes))
       (fetchFor : Nat → Nat → FetchOutcome) (order : List Nat) (j : Nat),
      resolveKey segs base keyFetch = .ok okey → j < segs.length →
      (∀ t, (fetchFor j t).isSuccess = false) →
      ∃ e', (runPipeline decFam segs base keyFetch fetchFor n order).2.2 = .error e') := by
  have hn' : 1 + (n - 1) = n := by omega
  have hA : segLoop f1 process idx 1 n =
      (failActs idx 1 (n - 1) ++ [Act.get idx n, Act.write (segName idx) buf], .ok buf) := by
    have := segLoop_succ_after f1 process idx (n - 1) 1 body buf
      (fun t ht1 ht2 => h1 t ht1 (by omega)) (by rw [hn']; exact h2) hp
    rw [hn'] at this
    exact this
  have hB : segLoop f2 process jdx 1 n =
      (failActs jdx 1 (n - 1) ++ [Act.get jdx n], .error (.exhausted n)) := by
    have := segLoop_all_fail f2 process jdx (n - 1) 1 (by omega) (fun t _ _ => h3 t)
    rw [hn'] at this
    exact this
  refine ⟨hA, hB, ?_, ?_⟩
  · rw [hB] at hj
    exact firstErr_error rs (.exhausted n) hj
  · intro decFam segs base keyFetch okey fetchFor order j hres hjlt hfl
    have hjres : (segResult decFam okey fetchFor n j).2 = .error (.exhausted n) := by
      rw [segResult]
      have := segLoop_all_fail (fetchFor j) (processBody decFam okey) j (n - 1) 1
        (by omega) (fun t _ _ => hfl t)
      rw [hn'] at this
      rw [this]
    cases hfe : firstErr (order.map (fun i => (segResult decFam okey fetchFor n i).2)) with
    | error e =>
        refine ⟨e, ?_⟩
        rw [runPipeline, if_neg (by omega), hres]
        simp only [hfe]
    | ok _ =>
        have hjnot : j ∉ order := by
          intro hmem
          have hin : Except.error (DlErr.exhausted n) ∈ order.map
              (fun i => (segResult decFam okey fetchFor n i).2) := by
            rw [← hjres]
            exact List.mem_map_of_mem _ hmem
          obtain ⟨e', he'⟩ := firstErr_error _ _ hin
          rw [hfe] at he'
          cases he'
        have hfsnone : applyWrites order
            (fun i => exceptBytes (segResult decFam okey fetchFor n i).2) fsEmpty
            (segName j) = none := by
          rw [applyWrites_not_mem order _ j hjnot]
          rfl
        obtain ⟨e, hm⟩ := mergeAux_missing (List.range segs.length)
          (applyWrites order
            (fun i => exceptBytes (segResult decFam okey fetchFor n i).2) fsEmpty)
          [] j (List.mem_range.mpr hjlt) hfsnone
        refine ⟨e, ?_⟩
        rw [runPipeline, if_neg (by omega), hres]
        simp only [hfe, mergeRun]
        rw [hm]

/-- Witness for C3: `n = 2`, one endpoint failing once with HTTP 500 then
serving `[7]`, one always failing at transport level. -/
theorem C3_witness :
    (1 ≤ 2) ∧
    (segLoop (fun t => if t = 1 then .httpErr 500 else .ok [7]) (fun b => .ok b) 0 1 2 =
      (failActs 0 1 1 ++ [Act.get 0 2, Act.write (segName 0) [7]], .ok [7]) ∧
    segLoop (fun _ => .connErr) (fun b => .ok b) 1 1 2 =
      (failActs 1 1 1 ++ [Act.get 1 2], .error (.exhausted 2)) ∧
    (∃ e', firstErr [(segLoop (fun _ => FetchOutcome.connErr)
      (fun b => Except.ok b) 1 1 2).2] = .error e') ∧
    (∃ e', (runPipeline (fun _ b => b) [⟨"s.ts".data, none⟩] none
      (fun _ => .error .transport) (fun _ _ => .connErr) 2 [0]).2.2 = .error e')) := by
  have h := C3_retry_semantics 2 (by decide) 0 1
    (fun t => if t = 1 then .httpErr 500 else .ok [7]) (fun _ => .connErr)
    (fun b => .ok b) [7] [7]
    [(segLoop (fun _ => FetchOutcome.connErr) (fun b => Except.ok b) 1 1 2).2]
    (by intro t ht1 ht2
        have : t = 1 := by omega
        rw [this]
        rfl)
    rfl rfl (fun _ => rfl) (List.mem_singleton.mpr rfl)
  exact ⟨by decide, h.1, h.2.1, h.2.2.1,
    h.2.2.2 (fun _ b => b) [⟨"s.ts".data, none⟩] none
      (fun _ => .error .transport) none (fun _ _ => .connErr) [0] 0
      rfl (by decide) (fun _ => rfl)⟩

/-- C4: the decryption decision and key material are a function of the first
segment only — the resolution ignores the tail; a first segment with no
encryption reference disables decryption for every segment; when the first
segment is encrypted, the single pair (key bytes fetched from the key URI
resolved against the base, IV hex-decoded after stripping the `0x` prefix)
is applied to every segment of the run. -/
theorem C4_first_segment_key (decFam : Bytes → Bytes → Bytes) (base : Option UrlM)
    (keyFetch : List Char → Except DlErr Bytes) :
    (∀ (s : MediaSegment) (t t' : List MediaSegment),
      resolveKey (s :: t) base keyFetch = resolveKey (s :: t') base keyFetch) ∧
    (∀ (s : MediaSegment) (t : List MediaSegment), s.key = none →
      resolveKey (s :: t) base keyFetch = .ok none) ∧
    (∀ b : Bytes, processBody decFam none b = .ok b) ∧
    (∀ (s : MediaSegment) (t : List MediaSegment) (kd : SegKey)
       (kuri ivHex : List Char) (kb iv : Bytes) (bu : UrlM),
      s.key = some kd → kd.uri = some kuri → kd.iv = some ivHex →
      base = some bu → keyFetch (joinUrl bu kuri) = .ok kb →
      hexDecode (stripHexPrefix ivHex) = some iv →
      resolveKey (s :: t) base keyFetch = .ok (some (kb, iv))) ∧
    (∀ (segs : List MediaSegment) (fetchFor : Nat → Nat → FetchOutcome)
       (retries : Nat) (order : List Nat) (p : Bytes × Bytes) (bodies decoded : Nat → Bytes),
      resolveKey segs base keyFetch = .ok (some p) → 0 < segs.length →
      (∀ i, i < segs.length → fetchFor i 1 = .ok (bodies i)) →
      (∀ i, i < segs.length → processBody decFam (some p) (bodies i) = .ok (decoded i)) →
      order.Perm (List.range segs.length) → 1 ≤ retries →
      ∃ tr fs', runPipeline decFam segs base keyFetch fetchFor retries order =
        (tr, fs', .ok ((List.range segs.length).map decoded).flatten)) := by
  refine ⟨?_, ?_, ?_, ?_, ?_⟩
  · intro s t t'
    rw [resolveKey, resolveKey]
  · intro s t hks
    simp [resolveKey, hks]
  · intro b
    rfl
  · intro s t kd kuri ivHex kb iv bu hks hku hkiv hbase hkf hhex
    subst hbase
    simp [resolveKey, hks, hku, hkiv, hkf, hhex]
  · intro segs fetchFor retries order p bodies decoded hres hN hf hp hord hr
    obtain ⟨tr, fs', heq, _⟩ := runPipeline_ok decFam segs base keyFetch fetchFor retries
      order (some p) bodies decoded hres hN hf hp hord hr
    exact ⟨tr, fs', heq⟩

/-- Witness for C4: a one-segment encrypted playlist whose `0x`-prefixed IV
hex decodes to 16 zero bytes; the resolved pair decrypts the (identity-block)
ciphertext of the empty plaintext. -/
theorem C4_witness :
    (resolveKey [⟨"s0.ts".data, some ⟨some "k.bin".data,
        some "0x00000000000000000000000000000000".data⟩⟩]
      (some ⟨"http".data, "h".data, "/".data, none⟩)
      (fun _ => .ok (List.replicate 16 0)) =
      .ok (some (List.replicate 16 0, List.replicate 16 0))) ∧
    (∃ tr fs', runPipeline (fun _ b => b)
        [⟨"s0.ts".data, some ⟨some "k.bin".data,
          some "0x00000000000000000000000000000000".data⟩⟩]
        (some ⟨"http".data, "h".data, "/".data, none⟩)
        (fun _ => .ok (List.replicate 16 0))
        (fun _ _ => .ok (List.replicate 16 16)) 1 [0] =
        (tr, fs', .ok ((List.range 1).map (fun _ => ([] : Bytes))).flatten)) :=
  ⟨(C4_first_segment_key (fun _ b => b)
      (some ⟨"http".data, "h".data, "/".data, none⟩)
      (fun _ => .ok (List.replicate 16 0))).2.2.2.1
    ⟨"s0.ts".data, some ⟨some "k.bin".data,
      some "0x00000000000000000000000000000000".data⟩⟩ []
    ⟨some "k.bin".data, some "0x00000000000000000000000000000000".data⟩
    "k.bin".data "0x00000000000000000000000000000000".data
    (List.replicate 16 0) (List.replicate 16 0)
    ⟨"http".data, "h".data, "/".data, none⟩
    rfl rfl rfl rfl rfl (by decide),
   (C4_first_segment_key (fun _ b => b)
      (some ⟨"http".data, "h".data, "/".data, none⟩)
      (fun _ => .ok (List.replicate 16 0))).2.2.2.2
    [⟨"s0.ts".data, some ⟨some "k.bin".data,
      some "0x00000000000000000000000000000000".data⟩⟩]
    (fun _ _ => .ok (List.replicate 16 16)) 1 [0]
    (List.replicate 16 0, List.replicate 16 0)
    (fun _ => List.replicate 16 16) (fun _ => [])
    (by decide) (by decide) (fun i _ => rfl)
    (fun i _ => by
      show processBody (fun _ b => b)
        (some (List.replicate 16 0, List.replicate 16 0))
        (List.replicate 16 16) = .ok []
      decide)
    (by decide) (by decide)⟩

/-- C5: a first segment signalling encryption with no key URI fails with the
missing-key-URI error; one with a key URI but no IV fails with the
missing-IV error (after the key fetch, which the source performs first); and
a resolved IV that is not 16 bytes long makes the run fail with the
IV-length error before any decryption is attempted: every segment whose GET
succeeds hits the IV check first, so the first-completed task reports the
IV-length error whatever the completion order. -/
theorem C5_key_validation (decFam : Bytes → Bytes → Bytes)
    (keyFetch : List Char → Except DlErr Bytes) :
    (∀ (s : MediaSegment) (t : List MediaSegment) (base : Option UrlM) (kd : SegKey),
      s.key = some kd → kd.uri = none →
      resolveKey (s :: t) base keyFetch = .error .missingKeyUri) ∧
    (∀ (s : MediaSegment) (t : List MediaSegment) (bu : UrlM) (kd : SegKey)
       (kuri : List Char) (kb : Bytes),
      s.key = some kd → kd.uri = some kuri → kd.iv = none →
      keyFetch (joinUrl bu kuri) = .ok kb →
      resolveKey (s :: t) (some bu) keyFetch = .error .missingIv) ∧
    (∀ (segs : List MediaSegment) (base : Option UrlM)
       (fetchFor : Nat → Nat → FetchOutcome) (retries : Nat) (order : List Nat)
       (k iv : Bytes) (bodies : Nat → Bytes),
      0 < segs.length → resolveKey segs base keyFetch = .ok (some (k, iv)) →
      iv.length ≠ 16 → (∀ i, i < segs.length → fetchFor i 1 = .ok (bodies i)) →
      order.Perm (List.range segs.length) → 1 ≤ retries →
      (runPipeline decFam segs base keyFetch fetchFor retries order).2.2 =
        .error .ivLength) := by
  refine ⟨?_, ?_, ?_⟩
  · intro s t base kd hks hku
    simp [resolveKey, hks, hku]
  · intro s t bu kd kuri kb hks hku hkiv hkf
    simp [resolveKey, hks, hku, hkiv, hkf]
  · intro segs base fetchFor retries order k iv bodies hN hres hiv hf hord hr
    have hseg : ∀ i, i < segs.length →
        (segResult decFam (some (k, iv)) fetchFor retries i).2 = .error .ivLength := by
      intro i hi
      rw [segResult, segLoop_success_err (fetchFor i) _ i 1 retries (bodies i) .ivLength
        hr (hf i hi) (by simp [processBody, hiv])]
    obtain ⟨o0, rest, hor⟩ : ∃ o0 rest, order = o0 :: rest := by
      cases order with
      | nil =>
          exfalso
          have hlen := hord.length_eq
          simp only [List.length_nil, List.length_range] at hlen
          omega
      | cons a b => exact ⟨a, b, rfl⟩
    have ho0 : o0 < segs.length := by
      have : o0 ∈ List.range segs.length := hord.mem_iff.mp (by rw [hor]; simp)
      exact List.mem_range.mp this
    have hfe : firstErr (order.map
        (fun i => (segResult decFam (some (k, iv)) fetchFor retries i).2)) =
        .error .ivLength := by
      rw [hor, List.map_cons, hseg o0 ho0]
      rfl
    rw [runPipeline, if_neg (by omega), hres]
    simp only [hfe]

/-- Witness for C5: the three failure shapes at concrete inputs — a key
reference with no URI, one with a URI but no IV, and a 30-hex-digit IV that
decodes to 15 bytes. -/
theorem C5_witness :
    (resolveKey [⟨"s.ts".data, some ⟨none, none⟩⟩] none
      (fun _ => .ok (List.replicate 16 0)) = .error .missingKeyUri) ∧
    (resolveKey [⟨"s.ts".data, some ⟨some "k.bin".data, none⟩⟩]
      (some ⟨"http".data, "h".data, "/".data, none⟩)
      (fun _ => .ok (List.replicate 16 0)) = .error .missingIv) ∧
    ((runPipeline (fun _ b => b)
        [⟨"s.ts".data, some ⟨some "http://h/k.bin".data,
          some "000000000000000000000000000000".data⟩⟩] none
        (fun _ => .ok (List.replicate 16 0)) (fun _ _ => .ok [1]) 1 [0]).2.2 =
      .error .ivLength) :=
  ⟨(C5_key_validation (fun _ b => b) (fun _ => .ok (List.replicate 16 0))).1
      ⟨"s.ts".data, some ⟨none, none⟩⟩ [] none ⟨none, none⟩ rfl rfl,
   (C5_key_validation (fun _ b => b) (fun _ => .ok (List.replicate 16 0))).2.1
      ⟨"s.ts".data, some ⟨some "k.bin".data, none⟩⟩ []
      ⟨"http".data, "h".data, "/".data, none⟩ ⟨some "k.bin".data, none⟩
      "k.bin".data (List.replicate 16 0) rfl rfl rfl rfl,
   (C5_key_validation (fun _ b => b) (fun _ => .ok (List.replicate 16 0))).2.2
      [⟨"s.ts".data, some ⟨some "http://h/k.bin".data,
        some "000000000000000000000000000000".data⟩⟩] none
      (fun _ _ => .ok [1]) 1 [0] (List.replicate 16 0) (List.replicate 15 0)
      (fun _ => [1])
      (by decide) (by decide) (by decide) (fun i _ => rfl) (by decide) (by decide)⟩

/-- C6: AES-128-CBC round-trip through the segment decryption path — for any
block cipher pair that inverts on 16-byte blocks (the `aes` crate's AES-128
under the 16-byte key), decrypting an encryption of any plaintext with the
same key/IV reproduces it exactly; a ciphertext whose length is not a
multiple of 16 fails with the decryption error; and any successful
decryption certifies well-formed PKCS#7 padding, so invalid padding fails. -/
theorem C6_cbc_roundtrip (encBlock decBlock : Bytes → Bytes) (k iv : Bytes)
    (decFam : Bytes → Bytes → Bytes)
    (hInv : ∀ b : Bytes, b.length = 16 → decBlock (encBlock b) = b)
    (hLen : ∀ b : Bytes, b.length = 16 → (encBlock b).length = 16)
    (hk : k.length = 16) (hiv : iv.length = 16)
    (hdec : decFam k = decBlock) :
    (∀ pt : Bytes, processBody decFam (some (k, iv)) (cbcEncrypt encBlock iv pt) = .ok pt) ∧
    (∀ ct : Bytes, ct.length % 16 ≠ 0 →
      processBody decFam (some (k, iv)) ct = .error .decryption) ∧
    (∀ ct m : Bytes, decryptVec decBlock iv ct = some m →
      ∃ n, 1 ≤ n ∧ n ≤ 16 ∧
        (cbcDecryptBlocks decBlock iv (toBlocks ct)).flatten = m ++ List.replicate n n) := by
  have hivne : ¬(iv.length ≠ 16) := by rw [hiv]; simp
  have hkne : ¬(k.length ≠ 16) := by rw [hk]; simp
  refine ⟨?_, ?_, ?_⟩
  · intro pt
    rw [processBody]
    simp only [if_neg hivne, if_neg hkne, hdec,
      decryptVec_cbcEncrypt encBlock decBlock hInv hLen iv pt hiv]
  · intro ct hct
    rw [processBody]
    simp only [if_neg hivne, if_neg hkne, hdec, decryptVec, if_neg hct]
  · intro ct m h
    rw [decryptVec] at h
    by_cases hmod : ct.length % 16 = 0
    · rw [if_pos hmod] at h
      exact pkcs7Unpad_some _ m h
    · rw [if_neg hmod] at h
      cases h

/-- Witness for C6: the identity block maps, a zero key and IV, plaintext
`[1, 2, 3]`, and the 1-byte ciphertext `[1]` (length not a multiple of 16). -/
theorem C6_witness :
    ((List.replicate 16 0 : Bytes).length = 16) ∧
    (processBody (fun _ b => b) (some (List.replicate 16 0, List.replicate 16 0))
      (cbcEncrypt (fun b => b) (List.replicate 16 0) [1, 2, 3]) = .ok [1, 2, 3]) ∧
    (processBody (fun _ b => b) (some (List.replicate 16 0, List.replicate 16 0))
      [1] = .error .decryption) :=
  ⟨by decide,
   (C6_cbc_roundtrip (fun b => b) (fun b => b) (List.replicate 16 0) (List.replicate 16 0)
      (fun _ b => b) (fun _ _ => rfl) (fun _ h => h) (by decide) (by decide) rfl).1 [1, 2, 3],
   (C6_cbc_roundtrip (fun b => b) (fun b => b) (List.replicate 16 0) (List.replicate 16 0)
      (fun _ b => b) (fun _ _ => rfl) (fun _ h => h) (by decide) (by decide) rfl).2.1 [1]
      (by decide)⟩

/-- C7 counterexample: the input `httpx://x/a/b` is not an HTTP(S) URL (its
scheme is neither `http` nor `https`), yet the source's `starts_with("http")`
test accepts it and a base URL `httpx://x/a/` is computed — refuting the
claim that no baseUrl is computed for non-HTTP(S) inputs. -/
theorem C7_counterexample :
    ("httpx".data ≠ "http".data ∧ "httpx".data ≠ "https".data) ∧
    computeBaseUrl "httpx://x/a/b".data =
      .ok (some { scheme := "httpx".data, host := "x".data,
                  path := "/a/".data, query := none }) := by
  constructor
  · exact ⟨by decide, by decide⟩
  · decide

/-- C7 (amended): for every well-formed URL whose scheme starts with `http`
(in particular every HTTP(S) URL), the computed base is that URL with its
query removed and its path truncated just after the final `'/'`; for every
input that does not start with `http`, no base is computed and segment URIs
are used as-is. -/
theorem C7_base_url (u : UrlM) (hwf : UrlWF u)
    (hpre : "http".data.isPrefixOf u.scheme) :
    (∃ d t, dirOfPath u.path = some d ∧ u.path = d ++ t ∧ '/' ∉ t ∧
      d.getLast? = some '/' ∧
      computeBaseUrl (renderUrl u) =
        .ok (some { scheme := u.scheme, host := u.host, path := d, query := none })) ∧
    (∀ url uri : List Char, startsWithHttp url = false →
      computeBaseUrl url = .ok none ∧ resolveSegUri none uri = uri) := by
  constructor
  · obtain ⟨p, hp⟩ := hwf.2.2.2.2.1
    have hmem : '/' ∈ u.path := by rw [hp]; simp
    obtain ⟨d, hd⟩ := dirOfPath_some_of_mem u.path hmem
    obtain ⟨t, ht, htmem, hlast⟩ := dirOfPath_some_spec u.path d hd
    refine ⟨d, t, hd, ht, htmem, hlast, ?_⟩
    rw [computeBaseUrl, if_pos (startsWithHttp_renderUrl u hpre),
      parseUrl_renderUrl u hwf]
    simp only [hd]
  · intro url uri h
    constructor
    · rw [computeBaseUrl, if_neg (by simp [h])]
    · rfl

/-- Witness for C7 (amended): `https://example.com/a/b/c.m3u8?x=1` yields the
base `https://example.com/a/b/` with the query dropped; a local path gets no
base and its segment URIs pass through unchanged. -/
theorem C7_witness :
    UrlWF ⟨"https".data, "example.com".data, "/a/b/c.m3u8".data, some "x=1".data⟩ ∧
    ("http".data.isPrefixOf "https".data) ∧
    ((∃ d t, dirOfPath "/a/b/c.m3u8".data = some d ∧ "/a/b/c.m3u8".data = d ++ t ∧
        '/' ∉ t ∧ d.getLast? = some '/' ∧
        computeBaseUrl (renderUrl ⟨"https".data, "example.com".data,
          "/a/b/c.m3u8".data, some "x=1".data⟩) =
          .ok (some { scheme := "https".data, host := "example.com".data,
                      path := d, query := none })) ∧
      (∀ url uri : List Char, startsWithHttp url = false →
        computeBaseUrl url = .ok none ∧ resolveSegUri none uri = uri)) :=
  ⟨by constructor <;> first | decide | (refine ⟨?_, ?_, ?_, ?_, ?_⟩ <;>
      first | decide | exact ⟨"a/b/c.m3u8".data, by decide⟩),
   by decide,
   C7_base_url ⟨"https".data, "example.com".data, "/a/b/c.m3u8".data, some "x=1".data⟩
    (by refine ⟨?_, ?_, ?_, ?_, ⟨"a/b/c.m3u8".data, by decide⟩, ?_⟩ <;> decide)
    (by decide)⟩

/-- C8: with semaphore size `K ≥ 1`, every state of the download phase
reachable by any interleaving of permit acquisitions and task completions
has at most `K` segment pipelines in flight; the other stages are sequential
compositions in `runPipeline`. -/
theorem C8_concurrency_bound (K N : Nat) (hK : 1 ≤ K) (l : List TaskPhase)
    (h : PoolReach K N l) : countRunning l ≤ K :=
  poolReach_countRunning_le K N l h

/-- Witness for C8: with `K = N = 1`, the state after one acquisition step is
reachable and has one task in flight. -/
theorem C8_witness : (1 ≤ 1) ∧ countRunning [TaskPhase.running] ≤ 1 :=
  ⟨le_rfl, C8_concurrency_bound 1 1 le_rfl [TaskPhase.running]
    (Relation.ReflTransGen.single
      (PoolStep.acquire [TaskPhase.pending] 0 rfl (by decide)))⟩

/-- C9: a media playlist with no segments fails with the no-segments error
before any key resolution, segment download or merge occurs — the result is
a fixed error triple with an empty action trace, independent of every
network oracle and of the completion order, and the run never produces a
merged output. -/
theorem C9_empty_playlist (decFam : Bytes → Bytes → Bytes) (base : Option UrlM)
    (keyFetch : List Char → Except DlErr Bytes) (fetchFor : Nat → Nat → FetchOutcome)
    (retries : Nat) (order : List Nat) :
    runPipeline decFam [] base keyFetch fetchFor retries order =
      ([], fsEmpty, .error .noSegments) ∧
    ∀ tr fs out, runPipeline decFam [] base keyFetch fetchFor retries order ≠
      (tr, fs, .ok out) := by
  have heq : runPipeline decFam [] base keyFetch fetchFor retries order =
      ([], fsEmpty, .error .noSegments) := rfl
  refine ⟨heq, ?_⟩
  intro tr fs out h
  rw [heq] at h
  have h2 := congrArg (fun x => x.2.2) h
  simp at h2

/-- Witness for C9: the empty playlist at concrete oracles. -/
theorem C9_witness :
    runPipeline (fun _ b => b) [] none (fun _ => .error .transport)
      (fun _ _ => .ok []) 1 [] = ([], fsEmpty, .error .noSegments) ∧
    runPipeline (fun _ b => b) [] none (fun _ => .error .transport)
      (fun _ _ => .ok []) 1 [] ≠ (([] : List Act), fsEmpty, .ok ([] : Bytes)) :=
  ⟨(C9_empty_playlist (fun _ b => b) none (fun _ => .error .transport)
      (fun _ _ => .ok []) 1 []).1,
   (C9_empty_playlist (fun _ b => b) none (fun _ => .error .transport)
      (fun _ _ => .ok []) 1 []).2 [] fsEmpty []⟩

/-- C10: the effective per-segment attempt budget is `max(retries, 1)`
reduced modulo 256 (the `as u8` cast); in particular `retries = 256` gives a
budget of 0, the attempt loop never runs, and a segment fails immediately
with zero GET attempts. -/
theorem C10_retries_truncation (r : Int) (h1 : -(2 ^ 31) ≤ r) (h2 : r < 2 ^ 31)
    (fetch : Nat → FetchOutcome) (process : Bytes → Except DlErr Bytes) (idx : Nat)
    (hfail : ∀ t, (fetch t).isSuccess = false) :
    countGets (segLoop fetch process idx 1 (clampRetries r)).1 =
      (max r 1).toNat % 256 ∧
    (clampRetries 256 = 0 ∧
      segLoop fetch process idx 1 (clampRetries 256) = ([], .error (.exhausted 0))) := by
  refine ⟨?_, by decide, ?_⟩
  · show countGets (segLoop fetch process idx 1 (clampRetries r)).1 = clampRetries r
    cases hc : clampRetries r with
    | zero =>
        rw [segLoop_zero]
        rfl
    | succ m =>
        have := segLoop_all_fail fetch process idx m 1 (by omega) (fun t _ _ => hfail t)
        rw [show 1 + m = m + 1 by omega] at this
        rw [this, countGets_append, countGets_failActs]
        simp [countGets, List.countP_cons, Act.isGet]
  · rw [show clampRetries 256 = 0 from by decide]
    exact segLoop_zero fetch process idx

/-- Witness for C10: `retries = 256` is inside the `i32` range and an
always-failing endpoint records `256 % 256 = 0` GET attempts. -/
theorem C10_witness :
    (-(2 ^ 31) ≤ (256 : Int)) ∧ ((256 : Int) < 2 ^ 31) ∧
    (countGets (segLoop (fun _ => FetchOutcome.connErr) (fun b => Except.ok b) 0 1
        (clampRetries 256)).1 = (max (256 : Int) 1).toNat % 256 ∧
      (clampRetries 256 = 0 ∧
        segLoop (fun _ => FetchOutcome.connErr) (fun b => Except.ok b) 0 1
          (clampRetries 256) = ([], .error (.exhausted 0)))) :=
  ⟨by decide, by decide,
    C10_retries_truncation 256 (by decide) (by decide)
      (fun _ => FetchOutcome.connErr) (fun b => Except.ok b) 0 (fun _ => rfl)⟩

end Hls
